import Mathlib

/-!
Verification of the core game logic of the Casino-Poker repository
(src/src/VideoPoker.tsx): card/deck model, Fisher-Yates shuffle, the
Jacks-or-Better hand evaluator, the paytable, and the round state machine
(bet / deal / hold / draw / bonus double-or-nothing), embedded shallowly.

Machine randomness (Math.random) is modelled by an oracle `rnd : Nat → Nat`
supplied to every operation that shuffles; `rnd i % (i+1)` plays the role of
`Math.floor(Math.random() * (i + 1))`.
-/

/-- The four suits, as in `type Suit = "S" | "H" | "D" | "C"`. -/
inductive Suit
  | S | H | D | C
deriving DecidableEq, Repr

/-- Card ranks, as in `type Rank = 2|...|10|"J"|"Q"|"K"|"A"`. -/
inductive Rank
  | n2 | n3 | n4 | n5 | n6 | n7 | n8 | n9 | n10 | J | Q | K | A
deriving DecidableEq, Repr

/-- A playing card (`interface Card { rank: Rank; suit: Suit }`). -/
structure Card where
  rank : Rank
  suit : Suit
deriving DecidableEq, Repr

/-- The list of suits used by `buildDeck`. -/
def allSuits : List Suit := [.S, .H, .D, .C]

/-- The list of ranks used by `buildDeck`. -/
def allRanks : List Rank :=
  [.n2, .n3, .n4, .n5, .n6, .n7, .n8, .n9, .n10, .J, .Q, .K, .A]

/-- `buildDeck`: all 52 rank × suit combinations, suits outer loop, ranks
inner loop, exactly as the nested `for` loops push them. -/
def buildDeck : List Card :=
  allSuits.flatMap (fun s => allRanks.map (fun r => { rank := r, suit := s }))

/-- One step of the Fisher-Yates loop body
`[a[i], a[j]] = [a[j], a[i]]`: swap positions `i` and `j`. -/
def fySwap (a : List α) (i j : Nat) : List α :=
  match a.get? i, a.get? j with
  | some x, some y => (a.set i y).set j x
  | _, _ => a

/-- The Fisher-Yates loop `for (let i = a.length - 1; i > 0; i--)`,
counting `i` down to 1; `rnd i % (i+1)` models
`Math.floor(Math.random() * (i + 1))`. -/
def fyLoop (rnd : Nat → Nat) : Nat → List α → List α
  | 0, a => a
  | i+1, a => fyLoop rnd i (fySwap a (i+1) (rnd (i+1) % (i+2)))

/-- `shuffle`: copies the input (`const a = [...arr]`, so the input is never
mutated; the embedding is pure anyway) and runs the Fisher-Yates loop. -/
def shuffle (rnd : Nat → Nat) (arr : List α) : List α :=
  fyLoop rnd (arr.length - 1) arr

/-- `rankVal`: numeric ranks map to themselves, A=14, K=13, Q=12, J=11. -/
def rankVal : Rank → Nat
  | .n2 => 2 | .n3 => 3 | .n4 => 4 | .n5 => 5 | .n6 => 6 | .n7 => 7
  | .n8 => 8 | .n9 => 9 | .n10 => 10
  | .J => 11 | .Q => 12 | .K => 13 | .A => 14

/-- The ten hand categories of `type HandRank`. -/
inductive HandRank
  | royalFlush | straightFlush | fourOfAKind | fullHouse | flush
  | straight | threeOfAKind | twoPair | jacksOrBetter | noWin
deriving DecidableEq, Repr

/-- The consecutive-differences test
`ranks.every((v,i,a)=> i===0 || v - a[i-1] === 1)` on the sorted rank list. -/
def consecB : List Nat → Bool
  | a :: b :: t => (b == a + 1) && consecB (b :: t)
  | _ => true

/-- The flush test `suits.every(s => s === suits[0])`. -/
def isFlushB : List Suit → Bool
  | [] => true
  | s :: rest => (s :: rest).all (fun t => t == s)

/-- The `counts` object of `evaluateHand`: it is filled by iterating the
sorted ranks, so the object's integer keys enumerate in ascending rank
order — `rs.dedup` of the sorted list — and each key maps to its
multiplicity.  Out-of-range indexing (`countVals[1]`, `ranks[4]` on short
lists) yields `undefined` in the source, which compares unequal to every
number; `getD _ 0` returns 0, which likewise fails every comparison made
here, since all counts are ≥ 1. -/
def countsOf (rs : List Nat) : List Nat :=
  rs.dedup.map (fun v => rs.count v)

/-- `countVals`: the multiplicities sorted descending (`sort((a,b)=>b-a)`). -/
def countValsOf (rs : List Nat) : List Nat :=
  List.insertionSort (· ≥ ·) (countsOf rs)

/-- `countVals[0]` (0 stands for the source's out-of-range `undefined`). -/
def maxCount (rs : List Nat) : Nat := (countValsOf rs).getD 0 0

/-- `countVals[1]` (0 stands for the source's out-of-range `undefined`). -/
def sndCount (rs : List Nat) : Nat := (countValsOf rs).getD 1 0

def handClass (ranks : List Nat) (isFlush : Bool) : HandRank :=
  let isWheel := ranks == [2, 3, 4, 5, 14]
  let isSeq := isWheel || consecB ranks
  let isRoyal := isFlush && !isWheel && (ranks.getD 0 0 == 10) && (ranks.getD 4 0 == 14)
  if isFlush && isSeq then (if isRoyal then .royalFlush else .straightFlush)
  else if maxCount ranks == 4 then .fourOfAKind
  else if maxCount ranks == 3 && sndCount ranks == 2 then .fullHouse
  else if isFlush then .flush
  else if isSeq then .straight
  else if maxCount ranks == 3 then .threeOfAKind
  else if maxCount ranks == 2 && sndCount ranks == 2 then .twoPair
  else if maxCount ranks == 2 then
    -- pairRank: first ascending key whose count is 2 (`Object.keys(...).find`);
    -- if none exists `Number(undefined)` is NaN and both comparisons fail.
    match ranks.dedup.find? (fun v => ranks.count v == 2) with
    | some p => if 11 ≤ p || p == 14 then .jacksOrBetter else .noWin
    | none => .noWin
  else .noWin

/-- `evaluateHand`: sort the rank values ascending (the unique sorted
rearrangement, as `sort((a,b)=>a-b)` produces) and classify. -/
def evaluateHand (cards : List Card) : HandRank :=
  handClass (List.insertionSort (· ≤ ·) (cards.map (fun c => rankVal c.rank)))
    (isFlushB (cards.map Card.suit))

/-- The `PAYTABLE` rows, payouts indexed by bet level 1-5. -/
def payRow : HandRank → List Int
  | .royalFlush => [250, 500, 750, 1000, 4000]
  | .straightFlush => [50, 100, 150, 200, 250]
  | .fourOfAKind => [25, 50, 75, 100, 125]
  | .fullHouse => [9, 18, 27, 36, 45]
  | .flush => [6, 12, 18, 24, 30]
  | .straight => [4, 8, 12, 16, 20]
  | .threeOfAKind => [3, 6, 9, 12, 15]
  | .twoPair => [2, 4, 6, 8, 10]
  | .jacksOrBetter => [1, 2, 3, 4, 5]
  | .noWin => [0, 0, 0, 0, 0]

/-- `PAYTABLE[ev.name][bet-1]`.  For `bet` outside 1-5 the source indexes out
of range, yielding `undefined`, and the only use `payout > 0` then takes the
no-win branch; 0 models that. -/
def payoutFor (h : HandRank) (bet : Int) : Int :=
  if 1 ≤ bet ∧ bet ≤ 5 then (payRow h).getD (bet - 1).toNat 0 else 0

/-! ## Spec-side hand classifier (for the C1 refinement)

The following definitions are written from the words of spec §4.2, not from
the source, and are compared against `evaluateHand`. -/

/-- Modelled from the spec: "all 5 same suit". -/
def specFlush (cards : List Card) : Prop :=
  ∀ x ∈ cards, ∀ y ∈ cards, x.suit = y.suit

/-- Modelled from the spec: "sort rank values ascending; consecutive
differences all equal 1" — each adjacent pair of the sorted list differs
by exactly 1. -/
def specConsec : List Nat → Prop
  | a :: b :: t => b = a + 1 ∧ specConsec (b :: t)
  | _ => True

/-- Modelled from the spec: "the exact multiset equals the wheel
{2,3,4,5,14}" — multiset equality stated as list permutation. -/
def specWheel (rs : List Nat) : Prop :=
  List.Perm rs [2, 3, 4, 5, 14]

instance (rs : List Nat) : Decidable (specWheel rs) :=
  inferInstanceAs (Decidable (List.Perm rs _))

instance specConsecDec : (rs : List Nat) → Decidable (specConsec rs)
  | [] => .isTrue trivial
  | [_] => .isTrue trivial
  | _ :: b :: t =>
    have : Decidable (specConsec (b :: t)) := specConsecDec (b :: t)
    inferInstanceAs (Decidable (_ ∧ _))

instance (cards : List Card) : Decidable (specFlush cards) :=
  inferInstanceAs (Decidable (∀ x ∈ cards, ∀ y ∈ cards, _))

/-- Modelled from the spec: the 10-way classification of §4.2, first match
wins, applied to the ascending-sorted rank values `rs` and the flush flag.
Category conditions follow the spec's words: "one rank appears 4×",
"one rank 3×, another rank 2×", "two distinct ranks each 2×",
"exactly one pair, and the paired rank is J, Q, K, or A (rank value ≥ 11)",
Royal Flush = "flush AND sequence AND high card = Ace AND not the wheel". -/
def specHandClass (rs : List Nat) (flush : Bool) : HandRank :=
  let wheel := specWheel rs
  let seq := specConsec rs ∨ wheel
  let highAce := rs.getLast? = some 14
  if flush ∧ seq ∧ highAce ∧ ¬wheel then .royalFlush
  else if flush ∧ seq then .straightFlush
  else if ∃ v ∈ rs, rs.count v = 4 then .fourOfAKind
  else if ∃ v ∈ rs, ∃ w ∈ rs, v ≠ w ∧ rs.count v = 3 ∧ rs.count w = 2 then .fullHouse
  else if flush then .flush
  else if seq then .straight
  else if ∃ v ∈ rs, rs.count v = 3 then .threeOfAKind
  else if ∃ v ∈ rs, ∃ w ∈ rs, v ≠ w ∧ rs.count v = 2 ∧ rs.count w = 2 then .twoPair
  else if ∃ v ∈ rs, rs.count v = 2 ∧ (∀ w ∈ rs, rs.count w = 2 → w = v) ∧ 11 ≤ v then
    .jacksOrBetter
  else .noWin

/-- Modelled from the spec: classify a hand by sorting the rank values
ascending and applying the §4.2 cascade. -/
def specEvaluateHand (cards : List Card) : HandRank :=
  specHandClass (List.insertionSort (· ≤ ·) (cards.map (fun c => rankVal c.rank)))
    (decide (specFlush cards))

/-! ## Round state machine

The component's logical state (credits, bet, stage, deck, hand, hold flags,
pending winnings, collect eligibility).  Presentation-only state (messages,
animation flags, flip states, the transiently revealed bonus card, modal
visibility) is not tracked; `bonusCard` always settles back to `null` after
each guess.  Each user action is modelled as an atomic transition (spec §5),
and the `useEffect` bet clamp (lines 151-156) is composed after every
action, since React runs it after each event's state updates settle. -/

/-- The `Stage` enum (`"payout"` is declared in the source but never set). -/
inductive Stage
  | bet | draw | payout | bonusOffer | bonus
deriving DecidableEq, Repr

/-- The color choice of the bonus mini-game. -/
inductive Color
  | red | black
deriving DecidableEq, Repr

/-- The tracked game state.  `credits`, `bet` and `pendingWin` are integers
(JS numbers); non-negativity of `credits` is proved, not assumed. -/
structure GameState where
  credits : Int
  bet : Int
  stage : Stage
  deck : List Card
  hand : List Card
  held : List Bool
  pendingWin : Int
  canCollect : Bool
deriving DecidableEq, Repr

/-- The `useEffect` bet clamp: when idle on the bet stage with positive
credits and `bet > credits`, set the bet to `Math.min(credits, 5)`. -/
def clampBet (s : GameState) : GameState :=
  if s.stage = .bet ∧ 0 < s.credits ∧ s.credits < s.bet then
    { s with bet := min s.credits 5 }
  else s

/-- `onDeal`: guarded by stage, out-of-credits, bet range and sufficiency;
deducts the bet, refreshes the deck when fewer than 10 cards remain, deals
the top 5 (`d.splice(0,5)`), clears the holds and moves to the draw stage. -/
def dealSource (rnd : Nat → Nat) (s : GameState) : List Card :=
  if s.deck.length < 10 then shuffle rnd buildDeck else s.deck

def onDeal (rnd : Nat → Nat) (s : GameState) : GameState :=
  if s.stage ≠ .bet then s
  else if s.credits ≤ 0 then s
  else if s.bet < 1 ∨ 5 < s.bet then s
  else if s.credits < s.bet then s
  else
    { s with credits := s.credits - s.bet,
             deck := (dealSource rnd s).drop 5,
             hand := (dealSource rnd s).take 5,
             held := List.replicate 5 false,
             stage := .draw }

/-- `toggleHold`: flip hold flag `i` (`h.map((v,idx)=> idx===i ? !v : v)`). -/
def toggleIdx : Nat → List Bool → List Bool
  | _, [] => []
  | 0, b :: bs => (!b) :: bs
  | n+1, b :: bs => b :: toggleIdx n bs

/-- `toggleHold` as an action: only legal during the draw stage. -/
def toggleHold (i : Nat) (s : GameState) : GameState :=
  if s.stage ≠ .draw then s else { s with held := toggleIdx i s.held }

/-- The replacement loop of `onDraw`: slot by slot, a held card is kept and
a non-held slot takes `d.shift()!` — the next card off the front of the
deck.  Popping from an empty deck returns `undefined` in the source (there
is no mid-draw reshuffle); that is the `none` result here.  A missing hold
flag (`held[i]` beyond the array) is `undefined`, hence falsy. -/
def drawFill : List Card → List Bool → List Card → Option (List Card × List Card)
  | [], _, d => some ([], d)
  | c :: cs, b :: bs, d =>
    if b then (drawFill cs bs d).map (fun p => (c :: p.1, p.2))
    else
      match d with
      | [] => none
      | x :: ds => (drawFill cs bs ds).map (fun p => (x :: p.1, p.2))
  | _ :: cs, [], d =>
    match d with
    | [] => none
    | x :: ds => (drawFill cs [] ds).map (fun p => (x :: p.1, p.2))

/-- `onDraw`: replace the non-held slots, evaluate the final hand, look up
`PAYTABLE[ev.name][bet-1]`; a positive payout records `pendingWin` and moves
to the bonus offer, otherwise straight back to the bet stage.  The `none`
branch is where the source would go on to dereference `undefined` cards; it
is proved unreachable (deck holds ≥ 5 cards whenever the stage is draw). -/
def onDraw (s : GameState) : GameState :=
  if s.stage ≠ .draw then s
  else
    match drawFill s.hand s.held s.deck with
    | none => s
    | some (finalHand, d) =>
      let payout := payoutFor (evaluateHand finalHand) s.bet
      if 0 < payout then
        { s with deck := d, hand := finalHand, pendingWin := payout, stage := .bonusOffer }
      else
        { s with deck := d, hand := finalHand, stage := .bet }

/-- `collectPending`: credit any positive `pendingWin`, zero it, and return
to the bet stage; leaving the bonus view also resets `canCollect`. -/
def collectPending (s : GameState) : GameState :=
  let credits := if 0 < s.pendingWin then s.credits + s.pendingWin else s.credits
  if s.stage = .bonus then
    { s with credits := credits, pendingWin := 0, stage := .bet, canCollect := false }
  else
    { s with credits := credits, pendingWin := 0, stage := .bet }

/-- `startBonus` (accepting the double-or-nothing offer): refresh the deck
if it is empty and enter the bonus stage.  The YES button exists only while
the offer modal shows (stage `bonus-offer` with a positive pending win). -/
def startBonus (rnd : Nat → Nat) (s : GameState) : GameState :=
  if s.stage = .bonusOffer ∧ 0 < s.pendingWin then
    { s with deck := if s.deck.length < 1 then shuffle rnd buildDeck else s.deck,
             canCollect := false, stage := .bonus }
  else s

/-- `onBonusGuess`: draw one card (reshuffling a fresh 52 if the deck is
empty), classify it red (hearts/diamonds) or black; a correct guess doubles
`pendingWin` and allows collecting, a wrong guess forfeits it and returns to
the bet stage with credits untouched.  The `[]` branch is unreachable: a
fresh 52-card deck is never empty. -/
def onBonusGuess (choice : Color) (rnd : Nat → Nat) (s : GameState) : GameState :=
  if s.stage ≠ .bonus then s
  else
    match (if s.deck.length < 1 then shuffle rnd buildDeck else s.deck) with
    | [] => s
    | card :: rest =>
      let isRed := card.suit = .H ∨ card.suit = .D
      let correct := if choice = .red then isRed else ¬isRed
      if correct then
        { s with deck := rest, pendingWin := s.pendingWin * 2, canCollect := true }
      else
        { s with deck := rest, pendingWin := 0, canCollect := false, stage := .bet }

/-- `onBetOne`: cycle the bet `(b % 5) + 1` while on the bet stage.
JS `%` is truncating remainder, `Int.tmod`. -/
def onBetOne (s : GameState) : GameState :=
  if s.stage = .bet then { s with bet := (Int.tmod s.bet 5) + 1 } else s

/-- `onMaxBet`: jump the bet to 5 while on the bet stage. -/
def onMaxBet (s : GameState) : GameState :=
  if s.stage = .bet then { s with bet := 5 } else s

/-- `startNewGame`: reset credits to 200, bet to 5, fresh shuffled deck,
empty hand, holds cleared, back to the bet stage.  (`pendingWin` and
`canCollect` are not touched by the source.) -/
def startNewGame (rnd : Nat → Nat) (s : GameState) : GameState :=
  { s with credits := 200, bet := 5, deck := shuffle rnd buildDeck,
           hand := [], held := List.replicate 5 false, stage := .bet }

/-- The public actions (spec §6 action API).  Actions that may shuffle carry
their randomness oracle.  `collect` is the COLLECT button of the bonus bar,
enabled only when `canCollect` (its `disabled` attribute); `acceptBonus` and
`declineBonus` are the YES / NO buttons of the offer modal, which renders
only in the `bonus-offer` stage with a positive pending win. -/
inductive Act
  | betOne
  | maxBet
  | deal (rnd : Nat → Nat)
  | toggleHold (i : Nat)
  | draw
  | acceptBonus (rnd : Nat → Nat)
  | declineBonus
  | guess (c : Color) (rnd : Nat → Nat)
  | collect
  | newGame (rnd : Nat → Nat)

/-- Raw effect of one action, before the bet-clamp effect runs. -/
def rawStep (a : Act) (s : GameState) : GameState :=
  match a with
  | .betOne => onBetOne s
  | .maxBet => onMaxBet s
  | .deal rnd => onDeal rnd s
  | .toggleHold i => toggleHold i s
  | .draw => onDraw s
  | .acceptBonus rnd => startBonus rnd s
  | .declineBonus =>
    if s.stage = .bonusOffer ∧ 0 < s.pendingWin then collectPending s else s
  | .guess c rnd => onBonusGuess c rnd s
  | .collect => if s.stage = .bonus ∧ s.canCollect then collectPending s else s
  | .newGame rnd => startNewGame rnd s

/-- One atomic public action: the raw transition followed by the
`useEffect` bet clamp. -/
def step (a : Act) (s : GameState) : GameState :=
  clampBet (rawStep a s)

/-- Run a sequence of public actions. -/
def run (s : GameState) (acts : List Act) : GameState :=
  acts.foldl (fun t a => step a t) s

/-- The initial state: 200 credits, bet 5 (the spec §6 defaults; the
localStorage restore is a persistence collaborator outside this core), a
freshly shuffled deck, no hand dealt. -/
def initState (rnd : Nat → Nat) : GameState :=
  { credits := 200, bet := 5, stage := .bet, deck := shuffle rnd buildDeck,
    hand := [], held := List.replicate 5 false, pendingWin := 0,
    canCollect := false }

/-- A state reachable from the initial state by public actions. -/
inductive Reachable : GameState → Prop
  | init (rnd : Nat → Nat) : Reachable (initState rnd)
  | step (a : Act) {s : GameState} : Reachable s → Reachable (step a s)

/-- Cards sitting in held slots, in order. -/
def selectHeld : List Card → List Bool → List Card
  | [], _ => []
  | _ :: cs, [] => selectHeld cs []
  | c :: cs, b :: bs => if b then c :: selectHeld cs bs else selectHeld cs bs

/-- Cards sitting in non-held slots, in order. -/
def selectFree : List Card → List Bool → List Card
  | [], _ => []
  | c :: cs, [] => c :: selectFree cs []
  | c :: cs, b :: bs => if b then selectFree cs bs else c :: selectFree cs bs

/-- Number of non-held slots: how many cards a draw pops off the deck. -/
def popCount : List Card → List Bool → Nat
  | [], _ => 0
  | _ :: cs, [] => 1 + popCount cs []
  | _ :: cs, b :: bs => (if b then 0 else 1) + popCount cs bs

/-- Invariant of every reachable state: non-negative credits, bet within
1..5, non-negative pending winnings, a duplicate-free deck, 5 hold flags,
the clamp invariant (bet affordable while idle on the bet stage with
positive credits), and during the draw stage a full 5-card hand disjoint
from a deck that still holds at least 5 cards. -/
def StateInv (s : GameState) : Prop :=
  0 ≤ s.credits ∧ 1 ≤ s.bet ∧ s.bet ≤ 5 ∧ 0 ≤ s.pendingWin ∧
  s.deck.Nodup ∧ s.held.length = 5 ∧
  (s.stage = .bet ∧ 0 < s.credits → s.bet ≤ s.credits) ∧
  (s.stage = .draw → s.hand.length = 5 ∧ (s.hand ++ s.deck).Nodup ∧ 5 ≤ s.deck.length)

/-- The invariant minus the clamp clause (holds of raw post-action states,
before the `useEffect` clamp re-establishes the clamp clause). -/
def StateInv0 (s : GameState) : Prop :=
  0 ≤ s.credits ∧ 1 ≤ s.bet ∧ s.bet ≤ 5 ∧ 0 ≤ s.pendingWin ∧
  s.deck.Nodup ∧ s.held.length = 5 ∧
  (s.stage = .draw → s.hand.length = 5 ∧ (s.hand ++ s.deck).Nodup ∧ 5 ≤ s.deck.length)

/-- A fixed randomness oracle (every Fisher-Yates pick takes index 0). -/
def rnd0 : Nat → Nat := fun _ => 0

/-- The card the next bonus guess will reveal, as the source computes it. -/
def nextCard (rnd : Nat → Nat) (s : GameState) : Option Card :=
  (if s.deck.length < 1 then shuffle rnd buildDeck else s.deck).head?

/-- Whether guessing `c` now would be correct (the revealed card's color
matches the guess). -/
def correctGuessB (c : Color) (rnd : Nat → Nat) (s : GameState) : Bool :=
  match nextCard rnd s with
  | none => false
  | some card =>
    let isRed := card.suit == Suit.H || card.suit == Suit.D
    if c = .red then isRed else !isRed

/-- Run a list of bonus guesses. -/
def runGuesses : GameState → List (Color × (Nat → Nat)) → GameState
  | s, [] => s
  | s, (c, r) :: rest => runGuesses (step (.guess c r) s) rest

/-- Every guess in the list is correct at the state where it is made. -/
def allCorrectB : GameState → List (Color × (Nat → Nat)) → Bool
  | _, [] => true
  | s, (c, r) :: rest => correctGuessB c r s && allCorrectB (step (.guess c r) s) rest

/-- The color that will NOT match the next revealed bonus card. -/
def wrongChoice (s : GameState) : Color :=
  match nextCard rnd0 s with
  | some card => if card.suit = .H ∨ card.suit = .D then .black else .red
  | none => .red

/-- A deterministic play policy that always loses the bet: deal, draw with
no holds, and on a win enter the bonus and guess the losing color once. -/
def policy (s : GameState) : Option Act :=
  match s.stage with
  | .bet => if 0 < s.credits then some (.deal rnd0) else none
  | .draw => some .draw
  | .bonusOffer => some (.acceptBonus rnd0)
  | .bonus => some (.guess (wrongChoice s) rnd0)
  | .payout => none

/-- Follow `policy` for at most `n` public actions. -/
def autoRun : Nat → GameState → GameState
  | 0, s => s
  | n+1, s =>
    match policy s with
    | none => s
    | some a => autoRun n (step a s)

/-- The state after playing the initial 200 credits down to 0: a reachable
state idle on the bet stage with 0 credits and bet 5. -/
def cexState : GameState := autoRun 200 (initState rnd0)

/-- The reachable draw-stage state after one deal from the initial state. -/
def drawnState : GameState := step (.deal rnd0) (initState rnd0)

/-- The same state with all five cards held. -/
def heldState : GameState :=
  step (.toggleHold 4) (step (.toggleHold 3) (step (.toggleHold 2)
    (step (.toggleHold 1) (step (.toggleHold 0) drawnState))))

/-- A reachable bonus-stage state: first deal, draw (a winning hand),
accept the double-or-nothing offer. -/
def bonusState : GameState :=
  step (.acceptBonus rnd0) (step .draw (step (.deal rnd0) (initState rnd0)))

/-! ## Deck and shuffle facts (C9) -/

theorem cons_set_perm : ∀ (xs : List α) (k : Nat) (h : k < xs.length) (x : α),
    List.Perm (xs[k] :: xs.set k x) (x :: xs)
  | y :: ys, 0, _, x => by
    simpa using List.Perm.swap x y ys
  | y :: ys, k+1, h, x => by
    have hk : k < ys.length := by simpa using h
    have ih := cons_set_perm ys k hk x
    show List.Perm (ys[k] :: y :: ys.set k x) (x :: y :: ys)
    have s1 : List.Perm (ys[k] :: y :: ys.set k x) (y :: ys[k] :: ys.set k x) :=
      List.Perm.swap y ys[k] (ys.set k x)
    have s2 : List.Perm (y :: ys[k] :: ys.set k x) (y :: x :: ys) := ih.cons y
    have s3 : List.Perm (y :: x :: ys) (x :: y :: ys) := List.Perm.swap x y ys
    exact s1.trans (s2.trans s3)

theorem fySwap_perm (a : List α) (i j : Nat) : List.Perm (fySwap a i j) a := by
  unfold fySwap
  cases hi : a.get? i with
  | none => simp
  | some x =>
    cases hj : a.get? j with
    | none => simp
    | some y =>
      simp only
      obtain ⟨hi', hx⟩ := List.get?_eq_some.mp hi
      obtain ⟨hj', hy⟩ := List.get?_eq_some.mp hj
      have hj'' : j < (a.set i y).length := by simpa using hj'
      have h1 := cons_set_perm a i hi' y
      have h2 := cons_set_perm (a.set i y) j hj'' x
      have hyj : (a.set i y)[j] = y := by
        by_cases hij : i = j
        · subst hij; simp
        · rw [List.getElem_set_ne (by omega)]
          exact hy ▸ (List.get_eq_getElem a ⟨j, hj'⟩) ▸ rfl
      rw [hyj] at h2
      have hxi : a[i] = x := by
        simpa [List.get_eq_getElem] using hx
      rw [hxi] at h1
      exact (h2.trans (h1.trans (List.Perm.refl _))).cons_inv
  
theorem fyLoop_perm (rnd : Nat → Nat) : ∀ (n : Nat) (a : List α),
    List.Perm (fyLoop rnd n a) a
  | 0, a => List.Perm.refl a
  | n+1, a =>
    (fyLoop_perm rnd n _).trans (fySwap_perm a (n+1) (rnd (n+1) % (n+2)))

theorem shuffle_perm (rnd : Nat → Nat) (l : List α) : List.Perm (shuffle rnd l) l :=
  fyLoop_perm rnd (l.length - 1) l

theorem shuffle_length (rnd : Nat → Nat) (l : List α) :
    (shuffle rnd l).length = l.length :=
  (shuffle_perm rnd l).length_eq

theorem shuffle_nodup (rnd : Nat → Nat) (l : List α) (h : l.Nodup) :
    (shuffle rnd l).Nodup :=
  ((shuffle_perm rnd l).nodup_iff).mpr h

theorem buildDeck_length : buildDeck.length = 52 := by rfl

theorem buildDeck_nodup : buildDeck.Nodup := by decide

theorem shuffle_short (rnd : Nat → Nat) (l : List α) (h : l.length ≤ 1) :
    shuffle rnd l = l := by
  match l with
  | [] => rfl
  | [a] => rfl
  | a :: b :: t => simp at h

/-! ## Draw replacement facts -/

theorem popCount_le : ∀ (hand : List Card) (held : List Bool),
    popCount hand held ≤ hand.length
  | [], _ => Nat.le_refl 0
  | c :: cs, [] => by
    have := popCount_le cs []
    simp only [popCount, List.length_cons]
    omega
  | c :: cs, b :: bs => by
    have := popCount_le cs bs
    cases b <;> simp [popCount] <;> omega

theorem drawFill_isSome : ∀ (hand : List Card) (held : List Bool) (d : List Card),
    popCount hand held ≤ d.length → (drawFill hand held d).isSome = true
  | [], _, d, _ => rfl
  | c :: cs, [], d, h => by
    match d with
    | [] => simp [popCount] at h
    | x :: ds =>
      have := drawFill_isSome cs [] ds (by simp [popCount] at h; omega)
      simp [drawFill]
      cases hd : drawFill cs [] ds with
      | none => rw [hd] at this; simp at this
      | some p => simp
  | c :: cs, b :: bs, d, h => by
    cases b with
    | true =>
      have := drawFill_isSome cs bs d (by simp [popCount] at h; omega)
      simp [drawFill]
      cases hd : drawFill cs bs d with
      | none => rw [hd] at this; simp at this
      | some p => simp
    | false =>
      match d with
      | [] => simp [popCount] at h
      | x :: ds =>
        have := drawFill_isSome cs bs ds (by simp [popCount] at h; omega)
        simp [drawFill]
        cases hd : drawFill cs bs ds with
        | none => rw [hd] at this; simp at this
        | some p => simp

theorem selectHeld_sublist : ∀ (hand : List Card) (held : List Bool),
    List.Sublist (selectHeld hand held) hand
  | [], _ => List.Sublist.refl []
  | c :: cs, [] => (selectHeld_sublist cs []).cons c
  | c :: cs, b :: bs => by
    cases b with
    | true => simpa [selectHeld] using (selectHeld_sublist cs bs).cons₂ c
    | false => simpa [selectHeld] using (selectHeld_sublist cs bs).cons c

/-- After a successful fill, the final hand together with the remaining deck
is a rearrangement of the held cards plus the whole pre-draw deck. -/
theorem drawFill_perm : ∀ (hand : List Card) (held : List Bool) (d fh d' : List Card),
    drawFill hand held d = some (fh, d') →
    List.Perm (fh ++ d') (selectHeld hand held ++ d)
  | [], held, d, fh, d', h => by
    simp [drawFill] at h
    obtain ⟨h1, h2⟩ := h
    subst h1; subst h2
    cases held <;> simp [selectHeld]
  | c :: cs, [], d, fh, d', h => by
    match d with
    | [] => simp [drawFill] at h
    | x :: ds =>
      simp only [drawFill] at h
      cases hd : drawFill cs [] ds with
      | none => rw [hd] at h; simp at h
      | some p =>
        rw [hd] at h; simp at h
        obtain ⟨h1, h2⟩ := h
        subst h1; subst h2
        have ih := drawFill_perm cs [] ds p.1 p.2 (by rw [hd])
        show List.Perm ((x :: p.1) ++ p.2) (selectHeld cs [] ++ (x :: ds))
        have := (ih.cons x)
        exact this.trans (List.perm_middle).symm
  | c :: cs, b :: bs, d, fh, d', h => by
    cases b with
    | true =>
      simp only [drawFill] at h
      cases hd : drawFill cs bs d with
      | none => rw [hd] at h; simp at h
      | some p =>
        rw [hd] at h; simp at h
        obtain ⟨h1, h2⟩ := h
        subst h1; subst h2
        have ih := drawFill_perm cs bs d p.1 p.2 (by rw [hd])
        simpa [selectHeld] using ih.cons c
    | false =>
      match d with
      | [] => simp [drawFill] at h
      | x :: ds =>
        simp only [drawFill] at h
        cases hd : drawFill cs bs ds with
        | none => rw [hd] at h; simp at h
        | some p =>
          rw [hd] at h; simp at h
          obtain ⟨h1, h2⟩ := h
          subst h1; subst h2
          have ih := drawFill_perm cs bs ds p.1 p.2 (by rw [hd])
          show List.Perm ((x :: p.1) ++ p.2) (selectHeld (c :: cs) (false :: bs) ++ (x :: ds))
          simp only [selectHeld, if_neg Bool.false_ne_true]
          exact (ih.cons x).trans (List.perm_middle).symm

theorem drawFill_length : ∀ (hand : List Card) (held : List Bool) (d fh d' : List Card),
    drawFill hand held d = some (fh, d') → fh.length = hand.length
  | [], held, d, fh, d', h => by
    simp [drawFill] at h
    simp [h.1.symm]
  | c :: cs, [], d, fh, d', h => by
    match d with
    | [] => simp [drawFill] at h
    | x :: ds =>
      simp only [drawFill] at h
      cases hd : drawFill cs [] ds with
      | none => rw [hd] at h; simp at h
      | some p =>
        rw [hd] at h; simp at h
        have ih := drawFill_length cs [] ds p.1 p.2 (by rw [hd])
        simp [h.1.symm, ih]
  | c :: cs, b :: bs, d, fh, d', h => by
    cases b with
    | true =>
      simp only [drawFill] at h
      cases hd : drawFill cs bs d with
      | none => rw [hd] at h; simp at h
      | some p =>
        rw [hd] at h; simp at h
        have ih := drawFill_length cs bs d p.1 p.2 (by rw [hd])
        simp [h.1.symm, ih]
    | false =>
      match d with
      | [] => simp [drawFill] at h
      | x :: ds =>
        simp only [drawFill] at h
        cases hd : drawFill cs bs ds with
        | none => rw [hd] at h; simp at h
        | some p =>
          rw [hd] at h; simp at h
          have ih := drawFill_length cs bs ds p.1 p.2 (by rw [hd])
          simp [h.1.symm, ih]

/-- Held slots keep exactly the card they had before the draw. -/
theorem drawFill_held : ∀ (hand : List Card) (held : List Bool) (d fh d' : List Card),
    drawFill hand held d = some (fh, d') →
    ∀ i : Nat, held.getD i false = true → fh.get? i = hand.get? i
  | [], held, d, fh, d', h => by
    simp [drawFill] at h
    intro i _
    simp [h.1.symm]
  | c :: cs, [], d, fh, d', h => by
    intro i hi
    simp at hi
  | c :: cs, b :: bs, d, fh, d', h => by
    cases b with
    | true =>
      simp only [drawFill] at h
      cases hd : drawFill cs bs d with
      | none => rw [hd] at h; simp at h
      | some p =>
        rw [hd] at h; simp at h
        have ih := drawFill_held cs bs d p.1 p.2 (by rw [hd])
        intro i hi
        match i with
        | 0 => simp [h.1.symm]
        | n+1 =>
          simp only [List.getD_cons_succ] at hi
          simpa [h.1.symm] using ih n hi
    | false =>
      match d with
      | [] => simp [drawFill] at h
      | x :: ds =>
        simp only [drawFill] at h
        cases hd : drawFill cs bs ds with
        | none => rw [hd] at h; simp at h
        | some p =>
          rw [hd] at h; simp at h
          have ih := drawFill_held cs bs ds p.1 p.2 (by rw [hd])
          intro i hi
          match i with
          | 0 => simp at hi
          | n+1 =>
            simp only [List.getD_cons_succ] at hi
            simpa [h.1.symm] using ih n hi

/-- The non-held slots receive, in order, exactly the cards from the front
of the deck, and the deck loses exactly that prefix. -/
theorem drawFill_free : ∀ (hand : List Card) (held : List Bool) (d fh d' : List Card),
    drawFill hand held d = some (fh, d') →
    selectFree fh held = d.take (popCount hand held) ∧
      d' = d.drop (popCount hand held)
  | [], held, d, fh, d', h => by
    simp [drawFill] at h
    obtain ⟨h1, h2⟩ := h
    subst h1; subst h2
    cases held <;> simp [selectFree, popCount]
  | c :: cs, [], d, fh, d', h => by
    match d with
    | [] => simp [drawFill] at h
    | x :: ds =>
      simp only [drawFill] at h
      cases hd : drawFill cs [] ds with
      | none => rw [hd] at h; simp at h
      | some p =>
        rw [hd] at h; simp at h
        obtain ⟨h1, h2⟩ := h
        subst h1; subst h2
        have ih := drawFill_free cs [] ds p.1 p.2 (by rw [hd])
        constructor
        · show x :: selectFree p.1 [] = (x :: ds).take (1 + popCount cs [])
          rw [Nat.add_comm 1, List.take_succ_cons]
          simp [ih.1]
        · show p.2 = (x :: ds).drop (1 + popCount cs [])
          rw [Nat.add_comm 1, List.drop_succ_cons]
          exact ih.2
  | c :: cs, b :: bs, d, fh, d', h => by
    cases b with
    | true =>
      simp only [drawFill] at h
      cases hd : drawFill cs bs d with
      | none => rw [hd] at h; simp at h
      | some p =>
        rw [hd] at h; simp at h
        obtain ⟨h1, h2⟩ := h
        subst h1; subst h2
        have ih := drawFill_free cs bs d p.1 p.2 (by rw [hd])
        constructor
        · show selectFree (c :: p.1) (true :: bs) = d.take (0 + popCount cs bs)
          simpa [selectFree] using ih.1
        · show p.2 = d.drop (0 + popCount cs bs)
          simpa using ih.2
    | false =>
      match d with
      | [] => simp [drawFill] at h
      | x :: ds =>
        simp only [drawFill] at h
        cases hd : drawFill cs bs ds with
        | none => rw [hd] at h; simp at h
        | some p =>
          rw [hd] at h; simp at h
          obtain ⟨h1, h2⟩ := h
          subst h1; subst h2
          have ih := drawFill_free cs bs ds p.1 p.2 (by rw [hd])
          constructor
          · show selectFree (x :: p.1) (false :: bs) = (x :: ds).take (1 + popCount cs bs)
            rw [Nat.add_comm 1, List.take_succ_cons]
            simp only [selectFree, if_neg Bool.false_ne_true]
            simp [ih.1]
          · show p.2 = (x :: ds).drop (1 + popCount cs bs)
            rw [Nat.add_comm 1, List.drop_succ_cons]
            exact ih.2

/-! ## The reachable-state invariant -/

theorem toggleIdx_length : ∀ (i : Nat) (l : List Bool), (toggleIdx i l).length = l.length
  | 0, [] => rfl
  | _+1, [] => rfl
  | 0, b :: bs => rfl
  | n+1, b :: bs => by simp [toggleIdx, toggleIdx_length n bs]

theorem getD_nonneg {l : List Int} (h : ∀ x ∈ l, 0 ≤ x) (n : Nat) : 0 ≤ l.getD n 0 := by
  rw [List.getD_eq_getElem?_getD]
  rcases hx : l[n]? with _ | x
  · simp
  · simpa using h x (List.getElem?_mem hx)

theorem payRow_nonneg (h : HandRank) : ∀ x ∈ payRow h, 0 ≤ x := by
  cases h <;> decide

theorem payoutFor_nonneg (h : HandRank) (bet : Int) : 0 ≤ payoutFor h bet := by
  unfold payoutFor
  split
  · exact getD_nonneg (payRow_nonneg h) _
  · exact le_refl 0

theorem StateInv.toStateInv0 {s : GameState} (h : StateInv s) : StateInv0 s :=
  ⟨h.1, h.2.1, h.2.2.1, h.2.2.2.1, h.2.2.2.2.1, h.2.2.2.2.2.1, h.2.2.2.2.2.2.2⟩

theorem clampBet_inv {s : GameState} (h : StateInv0 s) : StateInv (clampBet s) := by
  obtain ⟨hc, hb1, hb5, hpw, hnd, hh, hdraw⟩ := h
  unfold clampBet
  split
  case isTrue hcl =>
    obtain ⟨hst, hpos, hlt⟩ := hcl
    refine ⟨hc, ?_, ?_, hpw, hnd, hh, ?_, ?_⟩
    · simp only
      omega
    · simp only
      omega
    · intro _
      simp only
      omega
    · intro hd
      exact hdraw hd
  case isFalse hcl =>
    refine ⟨hc, hb1, hb5, hpw, hnd, hh, ?_, hdraw⟩
    intro ⟨hst, hpos⟩
    by_contra hlt
    exact hcl ⟨hst, hpos, by omega⟩

theorem stateInv0_of_inv {s : GameState} (h : StateInv s) : StateInv0 s :=
  StateInv.toStateInv0 h

theorem onBetOne_inv {s : GameState} (h : StateInv s) : StateInv0 (onBetOne s) := by
  obtain ⟨hc, hb1, hb5, hpw, hnd, hh, hcl, hdraw⟩ := h
  unfold onBetOne
  split
  case isTrue hst =>
    have h1 : 0 ≤ Int.tmod s.bet 5 := Int.tmod_nonneg 5 (by omega)
    have h2 : Int.tmod s.bet 5 < 5 := Int.tmod_lt_of_pos s.bet (by norm_num)
    refine ⟨hc, by simp only; omega, by simp only; omega, hpw, hnd, hh, ?_⟩
    intro hd
    simp only [hst] at hd
    exact absurd hd (by decide)
  case isFalse => exact ⟨hc, hb1, hb5, hpw, hnd, hh, hdraw⟩

theorem onMaxBet_inv {s : GameState} (h : StateInv s) : StateInv0 (onMaxBet s) := by
  obtain ⟨hc, hb1, hb5, hpw, hnd, hh, hcl, hdraw⟩ := h
  unfold onMaxBet
  split
  case isTrue hst =>
    refine ⟨hc, by norm_num, by norm_num, hpw, hnd, hh, ?_⟩
    intro hd
    simp only [hst] at hd
    exact absurd hd (by decide)
  case isFalse => exact ⟨hc, hb1, hb5, hpw, hnd, hh, hdraw⟩

theorem onDeal_inv (rnd : Nat → Nat) {s : GameState} (h : StateInv s) :
    StateInv0 (onDeal rnd s) := by
  have hs0 := h.toStateInv0
  obtain ⟨hc, hb1, hb5, hpw, hnd, hh, hcl, hdraw⟩ := h
  unfold onDeal
  split
  · exact hs0
  split
  · exact hs0
  split
  · exact hs0
  split
  case isTrue hcb => exact hs0
  case isFalse h1 h2 h3 h4 =>
    have hsdnd : (dealSource rnd s).Nodup := by
      unfold dealSource
      split
      · exact shuffle_nodup rnd buildDeck buildDeck_nodup
      · exact hnd
    have hsdlen : 10 ≤ (dealSource rnd s).length := by
      unfold dealSource
      split
      · rw [shuffle_length, buildDeck_length]
        omega
      case isFalse hx => omega
    refine ⟨by simp only; omega, hb1, hb5, hpw, ?_, by simp, ?_⟩
    · exact List.Nodup.sublist (List.drop_sublist 5 _) hsdnd
    · intro _
      refine ⟨?_, ?_, ?_⟩
      · simp only [List.length_take]
        omega
      · simpa [List.take_append_drop] using hsdnd
      · simp only [List.length_drop]
        omega

theorem toggleHold_inv (i : Nat) {s : GameState} (h : StateInv s) :
    StateInv0 (toggleHold i s) := by
  have hs0 := h.toStateInv0
  obtain ⟨hc, hb1, hb5, hpw, hnd, hh, hcl, hdraw⟩ := h
  unfold toggleHold
  split
  · exact hs0
  case isFalse hst =>
    have hst' : s.stage = .draw := not_not.mp hst
    exact ⟨hc, hb1, hb5, hpw, hnd, by simp [toggleIdx_length, hh], fun _ => hdraw hst'⟩

theorem onDraw_inv {s : GameState} (h : StateInv s) : StateInv0 (onDraw s) := by
  have hs0 := h.toStateInv0
  obtain ⟨hc, hb1, hb5, hpw, hnd, hh, hcl, hdraw⟩ := h
  unfold onDraw
  split
  · exact hs0
  case isFalse hst =>
    have hst' : s.stage = .draw := not_not.mp hst
    obtain ⟨hhl, hhd, hdl⟩ := hdraw hst'
    have hsome := drawFill_isSome s.hand s.held s.deck
      (le_trans (popCount_le _ _) (by omega))
    cases hdf : drawFill s.hand s.held s.deck with
    | none => rw [hdf] at hsome; simp at hsome
    | some p =>
      obtain ⟨fh, d'⟩ := p
      have hperm := drawFill_perm _ _ _ _ _ hdf
      have hnd' : (fh ++ d').Nodup := by
        refine hperm.nodup_iff.mpr ?_
        exact List.Nodup.sublist
          ((selectHeld_sublist s.hand s.held).append (List.Sublist.refl s.deck)) hhd
      have hd'nd : d'.Nodup := List.Nodup.of_append_right hnd'
      dsimp only
      split
      case isTrue hpay =>
        refine ⟨hc, hb1, hb5, le_of_lt hpay, hd'nd, hh, ?_⟩
        intro hd
        exact absurd hd (by simp)
      case isFalse hpay =>
        refine ⟨hc, hb1, hb5, hpw, hd'nd, hh, ?_⟩
        intro hd
        exact absurd hd (by simp)

theorem collectPending_inv {s : GameState} (h : StateInv s) :
    StateInv0 (collectPending s) := by
  obtain ⟨hc, hb1, hb5, hpw, hnd, hh, hcl, hdraw⟩ := h
  unfold collectPending
  split <;> split <;>
    exact ⟨by simp only; omega, hb1, hb5, le_refl 0, hnd, hh,
      fun hd => absurd hd (by simp)⟩

theorem startBonus_inv (rnd : Nat → Nat) {s : GameState} (h : StateInv s) :
    StateInv0 (startBonus rnd s) := by
  have hs0 := h.toStateInv0
  obtain ⟨hc, hb1, hb5, hpw, hnd, hh, hcl, hdraw⟩ := h
  unfold startBonus
  split
  case isTrue hg =>
    refine ⟨hc, hb1, hb5, hpw, ?_, hh, fun hd => absurd hd (by simp)⟩
    simp only
    split
    · exact shuffle_nodup rnd buildDeck buildDeck_nodup
    · exact hnd
  case isFalse => exact hs0

theorem onBonusGuess_inv (choice : Color) (rnd : Nat → Nat) {s : GameState}
    (h : StateInv s) : StateInv0 (onBonusGuess choice rnd s) := by
  have hs0 := h.toStateInv0
  obtain ⟨hc, hb1, hb5, hpw, hnd, hh, hcl, hdraw⟩ := h
  unfold onBonusGuess
  split
  · exact hs0
  case isFalse hst =>
    have hdnd : (if s.deck.length < 1 then shuffle rnd buildDeck else s.deck).Nodup := by
      split
      · exact shuffle_nodup rnd buildDeck buildDeck_nodup
      · exact hnd
    cases hd : (if s.deck.length < 1 then shuffle rnd buildDeck else s.deck) with
    | nil => exact hs0
    | cons card rest =>
      rw [hd] at hdnd
      dsimp only
      split <;> split <;>
        first
          | exact ⟨hc, hb1, hb5, by simp only; omega, hdnd.of_cons, hh,
              fun hx => absurd ((not_not.mp hst).symm.trans hx) (by decide)⟩
          | exact ⟨hc, hb1, hb5, le_refl 0, hdnd.of_cons, hh,
              fun hx => absurd hx (by simp)⟩

theorem startNewGame_inv (rnd : Nat → Nat) {s : GameState} (h : StateInv s) :
    StateInv0 (startNewGame rnd s) := by
  obtain ⟨hc, hb1, hb5, hpw, hnd, hh, hcl, hdraw⟩ := h
  simp only [StateInv0, startNewGame]
  refine ⟨by norm_num, by norm_num, by norm_num, hpw,
    shuffle_nodup rnd buildDeck buildDeck_nodup, by simp, ?_⟩
  intro hd
  exact absurd hd (by decide)

theorem rawStep_inv (a : Act) {s : GameState} (h : StateInv s) :
    StateInv0 (rawStep a s) := by
  cases a with
  | betOne => exact onBetOne_inv h
  | maxBet => exact onMaxBet_inv h
  | deal rnd => exact onDeal_inv rnd h
  | toggleHold i => exact toggleHold_inv i h
  | draw => exact onDraw_inv h
  | acceptBonus rnd => exact startBonus_inv rnd h
  | declineBonus =>
    simp only [rawStep]
    split
    · exact collectPending_inv h
    · exact h.toStateInv0
  | guess c rnd => exact onBonusGuess_inv c rnd h
  | collect =>
    simp only [rawStep]
    split
    · exact collectPending_inv h
    · exact h.toStateInv0
  | newGame rnd => exact startNewGame_inv rnd h

theorem step_inv (a : Act) {s : GameState} (h : StateInv s) : StateInv (step a s) :=
  clampBet_inv (rawStep_inv a h)

theorem initState_inv (rnd : Nat → Nat) : StateInv (initState rnd) := by
  simp only [StateInv, initState]
  refine ⟨by norm_num, by norm_num, by norm_num, by norm_num,
    shuffle_nodup rnd buildDeck buildDeck_nodup, by simp, ?_, ?_⟩
  · intro _
    norm_num
  · intro hd
    exact absurd hd (by decide)

theorem reachable_inv {s : GameState} (h : Reachable s) : StateInv s := by
  induction h with
  | init rnd => exact initState_inv rnd
  | step a _ ih => exact step_inv a ih

/-! ## Reachability and clamp helpers -/

theorem clampBet_fields (s : GameState) :
    (clampBet s).credits = s.credits ∧ (clampBet s).stage = s.stage ∧
    (clampBet s).deck = s.deck ∧ (clampBet s).hand = s.hand ∧
    (clampBet s).held = s.held ∧ (clampBet s).pendingWin = s.pendingWin ∧
    (clampBet s).canCollect = s.canCollect := by
  unfold clampBet
  split <;> simp

theorem clampBet_of_ne_bet {s : GameState} (h : s.stage ≠ Stage.bet) :
    clampBet s = s := by
  unfold clampBet
  rw [if_neg]
  intro hx
  exact h hx.1

theorem clampBet_of_inv {s : GameState} (h : StateInv s) : clampBet s = s := by
  unfold clampBet
  rw [if_neg]
  intro hx
  have := h.2.2.2.2.2.2.1 ⟨hx.1, hx.2.1⟩
  omega

theorem run_reachable {s : GameState} (h : Reachable s) :
    ∀ acts : List Act, Reachable (run s acts) := by
  intro acts
  induction acts generalizing s with
  | nil => exact h
  | cons a rest ih => exact ih (Reachable.step a h)

theorem autoRun_reachable (n : Nat) {s : GameState} (h : Reachable s) :
    Reachable (autoRun n s) := by
  induction n generalizing s with
  | zero => exact h
  | succ n ih =>
    unfold autoRun
    cases hp : policy s with
    | none => exact h
    | some a => exact ih (Reachable.step a h)

set_option maxRecDepth 100000 in
set_option maxHeartbeats 4000000 in
theorem cexState_props :
    cexState.credits = 0 ∧ cexState.bet = 5 ∧ cexState.stage = .bet := by
  decide

theorem cexState_reachable : Reachable cexState :=
  autoRun_reachable 200 (Reachable.init rnd0)

/-! ## Claim theorems -/

/-- C3 (counterexample): it is not true that every reachable state has
`bet ≤ credits` whenever the stage is Betting: playing the 200 starting
credits down to 0 (the concrete trace behind `cexState`) ends idle on the
bet stage with credits = 0 and bet = 5, and the clamp effect does not fire
because it requires positive credits. -/
theorem roundInvariant_counterexample :
    ¬ ∀ s : GameState, Reachable s →
        0 ≤ s.credits ∧ (s.stage = .bet → s.bet ≤ s.credits) := by
  intro hall
  obtain ⟨hcr, hbet, hst⟩ := cexState_props
  have h := (hall cexState cexState_reachable).2 hst
  rw [hcr, hbet] at h
  exact absurd h (by norm_num)

/-- C3 (amended): every reachable state satisfies `credits ≥ 0`, and
`bet ≤ credits` whenever the stage is Betting AND credits are positive
(the spec §8 phrasing; at credits = 0 the bet may exceed the credits). -/
theorem roundInvariant_amended {s : GameState} (h : Reachable s) :
    0 ≤ s.credits ∧ (s.stage = .bet → 0 < s.credits → s.bet ≤ s.credits) := by
  have hi := reachable_inv h
  exact ⟨hi.1, fun hst hpos => hi.2.2.2.2.2.2.1 ⟨hst, hpos⟩⟩

/-- Witness for C3's amended theorem at the initial state. -/
theorem roundInvariant_amended_witness :
    0 ≤ (initState rnd0).credits ∧
    ((initState rnd0).stage = .bet → 0 < (initState rnd0).credits →
      (initState rnd0).bet ≤ (initState rnd0).credits) :=
  roundInvariant_amended (Reachable.init rnd0)

/-- C2: every paytable row has exactly 5 entries (so `table[category][bet-1]`
never fails for bet 1-5), the No Win row is all zeros, every entry except
Royal Flush at bet 5 scales linearly with the bet level, Royal Flush at
bet 5 pays 4000, and `payoutFor` agrees with the row lookup. -/
theorem paytable_correct :
    (∀ h : HandRank, (payRow h).length = 5) ∧
    (∀ b : Fin 5, (payRow .noWin).getD b.val 0 = 0) ∧
    (payRow .royalFlush).getD 4 0 = 4000 ∧
    (∀ (h : HandRank) (b : Fin 5), ¬(h = .royalFlush ∧ b.val = 4) →
      (payRow h).getD b.val 0 = ((b.val : Int) + 1) * (payRow h).getD 0 0) ∧
    (∀ (h : HandRank) (b : Fin 5),
      payoutFor h ((b.val : Int) + 1) = (payRow h).getD b.val 0) := by
  refine ⟨?_, by decide, by decide, ?_, ?_⟩
  · intro h
    cases h <;> rfl
  · intro h b
    revert b
    cases h <;> decide
  · intro h b
    revert b
    cases h <;> decide

/-- Witness for C2 at Straight Flush, bet level 5. -/
theorem paytable_correct_witness :
    (payRow .straightFlush).getD 4 0 = ((4 : Int) + 1) * (payRow .straightFlush).getD 0 0 :=
  paytable_correct.2.2.2.1 .straightFlush ⟨4, by norm_num⟩ (by simp)

/-- C4: a deal from a reachable Betting-stage state with an affordable bet
deducts the bet, moves to the draw stage, clears all 5 hold flags, deals
the top 5 cards of the (refreshed-if-short) deck into the hand in order,
shrinks that deck by exactly 5, and the 5 dealt cards are distinct; the
deck is refreshed exactly when fewer than 10 cards remain. -/
theorem deal_spec (rnd : Nat → Nat) {s : GameState} (hr : Reachable s)
    (hst : s.stage = .bet) (hbc : s.bet ≤ s.credits) :
    (step (.deal rnd) s).credits = s.credits - s.bet ∧
    (step (.deal rnd) s).stage = .draw ∧
    (step (.deal rnd) s).held = List.replicate 5 false ∧
    (step (.deal rnd) s).hand = (dealSource rnd s).take 5 ∧
    (step (.deal rnd) s).deck = (dealSource rnd s).drop 5 ∧
    (step (.deal rnd) s).deck.length + 5 = (dealSource rnd s).length ∧
    (step (.deal rnd) s).hand.length = 5 ∧
    (step (.deal rnd) s).hand.Nodup ∧
    dealSource rnd s = (if s.deck.length < 10 then shuffle rnd buildDeck else s.deck) := by
  have hi := reachable_inv hr
  obtain ⟨hc, hb1, hb5, hpw, hnd, hh, hcl, hdraw⟩ := hi
  have hsdnd : (dealSource rnd s).Nodup := by
    unfold dealSource
    split
    · exact shuffle_nodup rnd buildDeck buildDeck_nodup
    · exact hnd
  have hsdlen : 10 ≤ (dealSource rnd s).length := by
    unfold dealSource
    split
    · rw [shuffle_length, buildDeck_length]
      omega
    case isFalse hx => omega
  have hdeal : rawStep (.deal rnd) s =
      { s with
        credits := s.credits - s.bet,
        deck := (dealSource rnd s).drop 5,
        hand := (dealSource rnd s).take 5,
        held := List.replicate 5 false,
        stage := .draw } := by
    show onDeal rnd s = _
    unfold onDeal
    rw [if_neg (by simp [hst]), if_neg (by omega), if_neg (by omega), if_neg (by omega)]
  have hclamp : step (.deal rnd) s = rawStep (.deal rnd) s := by
    show clampBet _ = _
    rw [hdeal]
    exact clampBet_of_ne_bet (by simp)
  rw [hclamp, hdeal]
  refine ⟨rfl, rfl, rfl, rfl, rfl, ?_, ?_, ?_, rfl⟩
  · simp only [List.length_drop]
    omega
  · simp only [List.length_take]
    omega
  · exact List.Nodup.sublist (List.take_sublist 5 _) hsdnd

/-- Witness for C4: the first deal from the initial state. -/
theorem deal_spec_witness :
    (step (.deal rnd0) (initState rnd0)).credits = 195 ∧
    (step (.deal rnd0) (initState rnd0)).stage = .draw := by
  have h := deal_spec rnd0 (Reachable.init rnd0) (by decide) (by decide)
  refine ⟨?_, h.2.1⟩
  rw [h.1]
  decide

/-- C10: in every reachable draw-stage state the number of non-held slots
is at most the deck size (the post-deal deck always holds at least 5
cards), so every `d.shift()!` pop is a defined card and the empty-deck
`none` branch of the embedded `drawFill` is unreachable — matching the
source, which performs no mid-draw reshuffle. -/
theorem draw_safe {s : GameState} (hr : Reachable s) (hst : s.stage = .draw) :
    popCount s.hand s.held ≤ s.deck.length ∧
    (drawFill s.hand s.held s.deck).isSome = true := by
  have hi := reachable_inv hr
  obtain ⟨_, _, _, _, _, _, _, hdraw⟩ := hi
  obtain ⟨hhl, hhd, hdl⟩ := hdraw hst
  have h1 : popCount s.hand s.held ≤ s.deck.length :=
    le_trans (popCount_le _ _) (by omega)
  exact ⟨h1, drawFill_isSome _ _ _ h1⟩

/-- Witness for C10 at the first post-deal state. -/
theorem draw_safe_witness :
    (drawFill drawnState.hand drawnState.held drawnState.deck).isSome = true :=
  (draw_safe (Reachable.step (.deal rnd0) (Reachable.init rnd0)) (by decide)).2

/-- C5: drawing in a reachable draw-stage state keeps every held slot's
card exactly as it was, fills the non-held slots in order with the cards
popped off the front of the deck (the deck loses exactly that prefix), and
the resulting hand together with the remaining deck is duplicate-free —
so every replacement card is distinct from every other card in the new
hand and from every card left in the deck. -/
theorem draw_spec {s : GameState} (hr : Reachable s) (hst : s.stage = .draw)
    {fh d' : List Card} (hdf : drawFill s.hand s.held s.deck = some (fh, d')) :
    (step .draw s).hand = fh ∧
    (step .draw s).deck = d' ∧
    (∀ i : Nat, s.held.getD i false = true → fh.get? i = s.hand.get? i) ∧
    selectFree fh s.held = s.deck.take (popCount s.hand s.held) ∧
    d' = s.deck.drop (popCount s.hand s.held) ∧
    (fh ++ d').Nodup := by
  have hi := reachable_inv hr
  obtain ⟨hc, hb1, hb5, hpw, hnd, hh, hcl, hdraw⟩ := hi
  obtain ⟨hhl, hhd, hdl⟩ := hdraw hst
  have hperm := drawFill_perm _ _ _ _ _ hdf
  have hnodup : (fh ++ d').Nodup := by
    refine hperm.nodup_iff.mpr ?_
    exact List.Nodup.sublist
      ((selectHeld_sublist s.hand s.held).append (List.Sublist.refl s.deck)) hhd
  have hheld := drawFill_held _ _ _ _ _ hdf
  have hfree := drawFill_free _ _ _ _ _ hdf
  have hraw : (rawStep .draw s).hand = fh ∧ (rawStep .draw s).deck = d' := by
    show (onDraw s).hand = fh ∧ (onDraw s).deck = d'
    unfold onDraw
    rw [if_neg (by simp [hst]), hdf]
    dsimp only
    split <;> exact ⟨rfl, rfl⟩
  have hcf := clampBet_fields (rawStep .draw s)
  exact ⟨hcf.2.2.2.1.trans hraw.1, hcf.2.2.1.trans hraw.2, hheld, hfree.1,
    hfree.2, hnodup⟩

/-- Witness for C5: drawing with all five cards held keeps the hand and
the deck unchanged. -/
theorem draw_spec_witness :
    (step .draw heldState).hand = heldState.hand ∧
    (step .draw heldState).deck = heldState.deck := by
  have hreach : Reachable heldState :=
    Reachable.step (.toggleHold 4) (Reachable.step (.toggleHold 3)
      (Reachable.step (.toggleHold 2) (Reachable.step (.toggleHold 1)
        (Reachable.step (.toggleHold 0)
          (Reachable.step (.deal rnd0) (Reachable.init rnd0))))))
  have h := @draw_spec heldState hreach (by decide)
    heldState.hand heldState.deck (by decide)
  exact ⟨h.1, h.2.1⟩

/-! ## Bonus mini-game facts (C6) -/

theorem bonusDeck_ne_nil (rnd : Nat → Nat) (s : GameState) :
    (if s.deck.length < 1 then shuffle rnd buildDeck else s.deck) ≠ [] := by
  split
  case isTrue h =>
    intro hx
    have hl : (shuffle rnd buildDeck).length = 52 := by
      rw [shuffle_length, buildDeck_length]
    rw [hx] at hl
    simp at hl
  case isFalse h =>
    intro hx
    rw [hx] at h
    simp at h

theorem correctGuessB_iff {s : GameState} {rnd : Nat → Nat} {card : Card}
    (h : nextCard rnd s = some card) (c : Color) :
    correctGuessB c rnd s = true ↔
      ((c = .red) ↔ (card.suit = .H ∨ card.suit = .D)) := by
  unfold correctGuessB
  rw [h]
  obtain ⟨cr, su⟩ := card
  cases c <;> cases su <;> simp

theorem clampBet_bet (s : GameState) :
    (clampBet s).bet =
      if s.stage = .bet ∧ 0 < s.credits ∧ s.credits < s.bet
      then min s.credits 5 else s.bet := by
  unfold clampBet
  split <;> simp_all

theorem guess_step_correct {s : GameState} {c : Color} {rnd : Nat → Nat}
    (hst : s.stage = .bonus) (hc : correctGuessB c rnd s = true) :
    (step (.guess c rnd) s).pendingWin = s.pendingWin * 2 ∧
    (step (.guess c rnd) s).canCollect = true ∧
    (step (.guess c rnd) s).stage = .bonus ∧
    (step (.guess c rnd) s).credits = s.credits ∧
    (step (.guess c rnd) s).deck =
      (if s.deck.length < 1 then shuffle rnd buildDeck else s.deck).tail := by
  cases hd : (if s.deck.length < 1 then shuffle rnd buildDeck else s.deck) with
  | nil => exact absurd hd (bonusDeck_ne_nil rnd s)
  | cons card rest =>
    have hnc : nextCard rnd s = some card := by
      unfold nextCard
      rw [hd]
      rfl
    have hiff := (correctGuessB_iff hnc c).mp hc
    have hrs : rawStep (.guess c rnd) s =
        { s with deck := rest, pendingWin := s.pendingWin * 2, canCollect := true } := by
      show onBonusGuess c rnd s = _
      unfold onBonusGuess
      rw [if_neg (by simp [hst]), hd]
      dsimp only
      rw [if_pos (by cases c <;> simp_all)]
    have hstep : step (.guess c rnd) s =
        clampBet { s with deck := rest, pendingWin := s.pendingWin * 2, canCollect := true } := by
      show clampBet _ = _
      rw [hrs]
    rw [hstep]
    have hcb := clampBet_fields
      { s with deck := rest, pendingWin := s.pendingWin * 2, canCollect := true }
    exact ⟨hcb.2.2.2.2.2.1, hcb.2.2.2.2.2.2, hcb.2.1.trans hst, hcb.1, hcb.2.2.1⟩

theorem guess_step_wrong {s : GameState} {c : Color} {rnd : Nat → Nat}
    (hst : s.stage = .bonus) (hc : correctGuessB c rnd s = false) :
    (step (.guess c rnd) s).pendingWin = 0 ∧
    (step (.guess c rnd) s).canCollect = false ∧
    (step (.guess c rnd) s).stage = .bet ∧
    (step (.guess c rnd) s).credits = s.credits ∧
    (step (.guess c rnd) s).deck =
      (if s.deck.length < 1 then shuffle rnd buildDeck else s.deck).tail := by
  cases hd : (if s.deck.length < 1 then shuffle rnd buildDeck else s.deck) with
  | nil => exact absurd hd (bonusDeck_ne_nil rnd s)
  | cons card rest =>
    have hnc : nextCard rnd s = some card := by
      unfold nextCard
      rw [hd]
      rfl
    have hiff : ¬((c = .red) ↔ (card.suit = .H ∨ card.suit = .D)) := by
      intro hx
      rw [(correctGuessB_iff hnc c).mpr hx] at hc
      simp at hc
    have hrs : rawStep (.guess c rnd) s =
        { s with deck := rest, pendingWin := 0, canCollect := false, stage := Stage.bet } := by
      show onBonusGuess c rnd s = _
      unfold onBonusGuess
      rw [if_neg (by simp [hst]), hd]
      dsimp only
      rw [if_neg (by cases c <;> simp_all)]
    have hstep : step (.guess c rnd) s =
        clampBet { s with deck := rest, pendingWin := 0, canCollect := false, stage := Stage.bet } := by
      show clampBet _ = _
      rw [hrs]
    rw [hstep]
    have hcb := clampBet_fields
      { s with deck := rest, pendingWin := 0, canCollect := false, stage := Stage.bet }
    exact ⟨hcb.2.2.2.2.2.1, hcb.2.2.2.2.2.2, hcb.2.1, hcb.1, hcb.2.2.1⟩

theorem bonus_doubling {s : GameState} (gs : List (Color × (Nat → Nat)))
    (hst : s.stage = .bonus) (hall : allCorrectB s gs = true) :
    (runGuesses s gs).pendingWin = s.pendingWin * 2 ^ gs.length ∧
    (runGuesses s gs).stage = .bonus ∧
    (runGuesses s gs).credits = s.credits := by
  induction gs generalizing s with
  | nil =>
    refine ⟨?_, hst, rfl⟩
    simp [runGuesses]
  | cons p rest ih =>
    obtain ⟨c, r⟩ := p
    simp only [allCorrectB, Bool.and_eq_true] at hall
    have h1 := guess_step_correct hst hall.1
    have ih' := ih (s := step (.guess c r) s) h1.2.2.1 hall.2
    have hrun : runGuesses s ((c, r) :: rest) = runGuesses (step (.guess c r) s) rest := rfl
    rw [hrun]
    refine ⟨?_, ih'.2.1, ih'.2.2.trans h1.2.2.2.1⟩
    rw [ih'.1, h1.1]
    rw [List.length_cons, pow_succ]
    ring

/-- C6: in the bonus sub-machine, each guess draws the next card off the
deck (a fresh 52-card shuffle first when the deck is empty); hearts and
diamonds are red, spades and clubs black.  A matching guess doubles
`pendingWin`, sets `canCollect`, and stays in the bonus stage; a mismatch
zeroes `pendingWin`, clears `canCollect`, and returns to the Betting stage;
credits are untouched either way.  Consequently N consecutive correct
guesses multiply `pendingWin` by 2^N without touching the credits. -/
theorem bonus_spec :
    (∀ (s : GameState) (c : Color) (rnd : Nat → Nat) (card : Card),
      s.stage = .bonus → nextCard rnd s = some card →
      (step (.guess c rnd) s).credits = s.credits ∧
      (step (.guess c rnd) s).deck =
        (if s.deck.length < 1 then shuffle rnd buildDeck else s.deck).tail ∧
      (((c = .red) ↔ (card.suit = .H ∨ card.suit = .D)) →
        (step (.guess c rnd) s).pendingWin = s.pendingWin * 2 ∧
        (step (.guess c rnd) s).canCollect = true ∧
        (step (.guess c rnd) s).stage = .bonus) ∧
      ((¬((c = .red) ↔ (card.suit = .H ∨ card.suit = .D))) →
        (step (.guess c rnd) s).pendingWin = 0 ∧
        (step (.guess c rnd) s).canCollect = false ∧
        (step (.guess c rnd) s).stage = .bet)) ∧
    (∀ (s : GameState) (gs : List (Color × (Nat → Nat))),
      s.stage = .bonus → allCorrectB s gs = true →
      (runGuesses s gs).pendingWin = s.pendingWin * 2 ^ gs.length ∧
      (runGuesses s gs).stage = .bonus ∧
      (runGuesses s gs).credits = s.credits) := by
  constructor
  · intro s c rnd card hst hnc
    by_cases hgb : correctGuessB c rnd s = true
    · have h := guess_step_correct hst hgb
      refine ⟨h.2.2.2.1, h.2.2.2.2, fun _ => ⟨h.1, h.2.1, h.2.2.1⟩, fun hniff => ?_⟩
      exact absurd ((correctGuessB_iff hnc c).mp hgb) hniff
    · have hgb' : correctGuessB c rnd s = false := by
        cases hx : correctGuessB c rnd s
        · rfl
        · exact absurd hx hgb
      have h := guess_step_wrong hst hgb'
      refine ⟨h.2.2.2.1, h.2.2.2.2, fun hiff => ?_, fun _ => ⟨h.1, h.2.1, h.2.2.1⟩⟩
      exact absurd ((correctGuessB_iff hnc c).mpr hiff) hgb
  · intro s gs hst hall
    exact bonus_doubling gs hst hall

/-- Witness for C6: one correct (black) guess at a concrete reachable
bonus state doubles the 250-credit pending win to 500. -/
theorem bonus_spec_witness :
    (runGuesses bonusState [(Color.black, rnd0)]).pendingWin =
      bonusState.pendingWin * 2 ^ ([(Color.black, rnd0)] : List (Color × (Nat → Nat))).length :=
  (bonus_spec.2 bonusState [(Color.black, rnd0)] (by decide) (by decide)).1

set_option maxRecDepth 100000 in
set_option maxHeartbeats 4000000 in
/-- C7 (counterexample): with credits = 0 the bet adjustments are NOT
rejected: at the reachable state `cexState` (bet stage, credits 0, bet 5)
the bet-one action cycles the bet from 5 to 1 — the clamp effect is skipped
because it requires positive credits (the UI merely hides these buttons
behind the out-of-credits modal). -/
theorem betAdjust_counterexample :
    Reachable cexState ∧ cexState.stage = .bet ∧ cexState.credits = 0 ∧
    (step .betOne cexState).bet ≠ cexState.bet := by
  refine ⟨cexState_reachable, cexState_props.2.2, cexState_props.1, ?_⟩
  decide

/-- C7 (amended): on the bet stage, bet-one cycles `(bet % 5) + 1` and
max-bet jumps to 5; with positive credits both results are clamped into
`[1, min(5, credits)]` (and are exactly the cycled / maximal value when it
is affordable); with credits = 0 the clamp is skipped and the raw cycled /
maximal value stands (the actions are not rejected by the state machine). -/
theorem betAdjust_amended {s : GameState} (hr : Reachable s)
    (hst : s.stage = .bet) :
    (0 < s.credits →
      1 ≤ (step .betOne s).bet ∧ (step .betOne s).bet ≤ min 5 s.credits ∧
      1 ≤ (step .maxBet s).bet ∧ (step .maxBet s).bet ≤ min 5 s.credits ∧
      (Int.tmod s.bet 5 + 1 ≤ s.credits →
        (step .betOne s).bet = Int.tmod s.bet 5 + 1) ∧
      (5 ≤ s.credits → (step .maxBet s).bet = 5)) ∧
    (s.credits = 0 →
      (step .betOne s).bet = Int.tmod s.bet 5 + 1 ∧
      (step .maxBet s).bet = 5) := by
  have hi := reachable_inv hr
  obtain ⟨hc, hb1, hb5, hpw, hnd, hh, hcl, hdraw⟩ := hi
  have htm0 : 0 ≤ Int.tmod s.bet 5 := Int.tmod_nonneg 5 (by omega)
  have htm5 : Int.tmod s.bet 5 < 5 := Int.tmod_lt_of_pos s.bet (by norm_num)
  have hbo : rawStep .betOne s = { s with bet := Int.tmod s.bet 5 + 1 } := by
    show onBetOne s = _
    unfold onBetOne
    rw [if_pos hst]
  have hmb : rawStep .maxBet s = { s with bet := (5 : Int) } := by
    show onMaxBet s = _
    unfold onMaxBet
    rw [if_pos hst]
  have hbo' : (step .betOne s).bet =
      if 0 < s.credits ∧ s.credits < Int.tmod s.bet 5 + 1
      then min s.credits 5 else Int.tmod s.bet 5 + 1 := by
    show (clampBet _).bet = _
    rw [hbo, clampBet_bet]
    simp [hst]
  have hmb' : (step .maxBet s).bet =
      if 0 < s.credits ∧ s.credits < 5
      then min s.credits 5 else 5 := by
    show (clampBet _).bet = _
    rw [hmb, clampBet_bet]
    simp [hst]
  constructor
  · intro hpos
    refine ⟨?_, ?_, ?_, ?_, ?_, ?_⟩
    · rw [hbo']
      split <;> omega
    · rw [hbo']
      split <;> omega
    · rw [hmb']
      split <;> omega
    · rw [hmb']
      split <;> omega
    · intro haff
      rw [hbo', if_neg (by omega)]
    · intro haff
      rw [hmb', if_neg (by omega)]
  · intro hzero
    constructor
    · rw [hbo', if_neg (by omega)]
    · rw [hmb', if_neg (by omega)]

/-- Witness for C7's amended theorem at the initial state (credits 200,
bet 5): bet-one cycles 5 → 1 and max-bet keeps 5. -/
theorem betAdjust_amended_witness :
    (step .betOne (initState rnd0)).bet = Int.tmod (initState rnd0).bet 5 + 1 ∧
    (step .maxBet (initState rnd0)).bet = 5 := by
  have h := (betAdjust_amended (Reachable.init rnd0) (by decide)).1 (by decide)
  exact ⟨h.2.2.2.2.1 (by decide), h.2.2.2.2.2 (by decide)⟩

/-- C8: on reachable states, actions invoked outside their legal stage (or
without their enabling condition) leave the entire state unchanged:
toggling a hold outside the draw stage, dealing with credits < bet,
guessing a color outside the bonus stage, pressing COLLECT without
`canCollect`, bet adjustments and deals outside the bet stage, drawing
outside the draw stage, and answering the bonus offer outside the
bonus-offer stage.  A valid COLLECT (bonus stage with `canCollect`) adds
`pendingWin` to the credits, clears it, and returns to the Betting stage. -/
theorem noop_spec {s : GameState} (hr : Reachable s) (i : Nat) (c : Color)
    (rnd : Nat → Nat) :
    (s.stage ≠ .draw → step (.toggleHold i) s = s) ∧
    (s.credits < s.bet → step (.deal rnd) s = s) ∧
    (s.stage ≠ .bonus → step (.guess c rnd) s = s) ∧
    (¬(s.stage = .bonus ∧ s.canCollect = true) → step .collect s = s) ∧
    (s.stage = .bonus → s.canCollect = true →
      (step .collect s).credits = s.credits + s.pendingWin ∧
      (step .collect s).pendingWin = 0 ∧
      (step .collect s).stage = .bet) ∧
    (s.stage ≠ .bet → step .betOne s = s ∧ step .maxBet s = s ∧
      step (.deal rnd) s = s) ∧
    (s.stage ≠ .draw → step .draw s = s) ∧
    (s.stage ≠ .bonusOffer → step (.acceptBonus rnd) s = s ∧
      step .declineBonus s = s) := by
  have hi := reachable_inv hr
  have hcf : clampBet s = s := clampBet_of_inv hi
  obtain ⟨hc, hb1, hb5, hpw, hnd, hh, hcl, hdraw⟩ := hi
  refine ⟨?_, ?_, ?_, ?_, ?_, ?_, ?_, ?_⟩
  · intro hst
    show clampBet (toggleHold i s) = s
    unfold toggleHold
    rw [if_pos hst, hcf]
  · intro hlt
    show clampBet (onDeal rnd s) = s
    have : onDeal rnd s = s := by
      unfold onDeal
      by_cases hst : s.stage = .bet
      · rw [if_neg (by simp [hst])]
        by_cases hcz : s.credits ≤ 0
        · rw [if_pos hcz]
        · rw [if_neg hcz, if_neg (by omega), if_pos hlt]
      · rw [if_pos hst]
    rw [this, hcf]
  · intro hst
    show clampBet (onBonusGuess c rnd s) = s
    unfold onBonusGuess
    rw [if_pos hst, hcf]
  · intro hg
    show clampBet _ = s
    unfold rawStep
    rw [if_neg hg, hcf]
  · intro hst hcc
    have hcp : collectPending s =
        { s with credits := if 0 < s.pendingWin then s.credits + s.pendingWin else s.credits,
                 pendingWin := 0, stage := Stage.bet, canCollect := false } := by
      unfold collectPending
      rw [if_pos hst]
    have hrs : rawStep .collect s = collectPending s := by
      show (if s.stage = .bonus ∧ s.canCollect then collectPending s else s) = _
      rw [if_pos ⟨hst, hcc⟩]
    have hcr : (if 0 < s.pendingWin then s.credits + s.pendingWin else s.credits) =
        s.credits + s.pendingWin := by
      split <;> omega
    have hcb := clampBet_fields (collectPending s)
    refine ⟨?_, ?_, ?_⟩
    · show (clampBet (rawStep .collect s)).credits = _
      rw [hrs]
      rw [hcb.1, hcp, hcr]
    · show (clampBet (rawStep .collect s)).pendingWin = _
      rw [hrs, hcb.2.2.2.2.2.1, hcp]
    · show (clampBet (rawStep .collect s)).stage = _
      rw [hrs, hcb.2.1, hcp]
  · intro hst
    refine ⟨?_, ?_, ?_⟩
    · show clampBet (onBetOne s) = s
      unfold onBetOne
      rw [if_neg hst, hcf]
    · show clampBet (onMaxBet s) = s
      unfold onMaxBet
      rw [if_neg hst, hcf]
    · show clampBet (onDeal rnd s) = s
      unfold onDeal
      rw [if_pos hst, hcf]
  · intro hst
    show clampBet (onDraw s) = s
    unfold onDraw
    rw [if_pos hst, hcf]
  · intro hst
    constructor
    · show clampBet (startBonus rnd s) = s
      unfold startBonus
      rw [if_neg (by intro hx; exact hst hx.1), hcf]
    · show clampBet _ = s
      unfold rawStep
      rw [if_neg (by intro hx; exact hst hx.1), hcf]

/-- Witness for C8 at the initial state (bet stage): a hold toggle and a
color guess are no-ops there. -/
theorem noop_spec_witness :
    step (.toggleHold 0) (initState rnd0) = initState rnd0 ∧
    step (.guess .red rnd0) (initState rnd0) = initState rnd0 := by
  have h := noop_spec (Reachable.init rnd0) 0 Color.red rnd0
  exact ⟨h.1 (by decide), h.2.2.1 (by decide)⟩

/-- C9: `buildDeck` yields exactly 52 distinct cards in a deterministic
order; for every input list and every randomness oracle, `shuffle` returns
a permutation of its input (the multiset of elements is invariant, and the
embedding is a pure function of its input, matching the source's copy-then-
swap that never mutates the argument); it is the identity on inputs of
length 0 or 1; hence a shuffled full deck is again 52 distinct cards. -/
theorem deck_shuffle_spec :
    buildDeck.length = 52 ∧
    buildDeck.Nodup ∧
    (∀ (rnd : Nat → Nat) (l : List Card), List.Perm (shuffle rnd l) l) ∧
    (∀ (rnd : Nat → Nat) (l : List Card), l.length ≤ 1 → shuffle rnd l = l) ∧
    (∀ rnd : Nat → Nat,
      (shuffle rnd buildDeck).length = 52 ∧ (shuffle rnd buildDeck).Nodup) := by
  refine ⟨buildDeck_length, buildDeck_nodup, fun rnd l => shuffle_perm rnd l,
    fun rnd l h => shuffle_short rnd l h, fun rnd => ⟨?_, ?_⟩⟩
  · rw [shuffle_length, buildDeck_length]
  · exact shuffle_nodup rnd buildDeck buildDeck_nodup

/-- Witness for C9: a singleton list is left unchanged by any shuffle. -/
theorem deck_shuffle_spec_witness :
    shuffle rnd0 [(⟨Rank.A, Suit.S⟩ : Card)] = [⟨Rank.A, Suit.S⟩] :=
  deck_shuffle_spec.2.2.2.1 rnd0 [⟨Rank.A, Suit.S⟩] (by decide)

/-! ## Count-multiset machinery for the evaluator refinement (C1) -/

theorem mem_countsOf {rs : List Nat} {x : Nat} :
    x ∈ countsOf rs ↔ ∃ v ∈ rs, rs.count v = x := by
  unfold countsOf
  simp [List.mem_map, List.mem_dedup]

theorem countsOf_pos {rs : List Nat} {x : Nat} (h : x ∈ countsOf rs) : 0 < x := by
  obtain ⟨v, hv, hc⟩ := mem_countsOf.mp h
  rw [← hc]
  exact List.count_pos_iff.mpr hv

theorem countValsOf_perm (rs : List Nat) :
    List.Perm (countValsOf rs) (countsOf rs) :=
  List.perm_insertionSort _ _

theorem countValsOf_sorted (rs : List Nat) :
    (countValsOf rs).Sorted (· ≥ ·) :=
  List.sorted_insertionSort _ _

theorem mem_countValsOf {rs : List Nat} {x : Nat} :
    x ∈ countValsOf rs ↔ x ∈ countsOf rs :=
  (countValsOf_perm rs).mem_iff

theorem sum_countsOf (rs : List Nat) : (countsOf rs).sum = rs.length := by
  have h := Multiset.toFinset_sum_count_eq (rs : Multiset Nat)
  simp only [Finset.sum, List.toFinset, Multiset.toFinset] at h
  simpa [countsOf] using h

theorem le_maxCount {rs : List Nat} {x : Nat} (h : x ∈ countsOf rs) :
    x ≤ maxCount rs := by
  have hx : x ∈ countValsOf rs := mem_countValsOf.mpr h
  unfold maxCount
  cases hcv : countValsOf rs with
  | nil => rw [hcv] at hx; simp at hx
  | cons c t =>
    rw [hcv] at hx
    rcases List.mem_cons.mp hx with h1 | h2
    · simp [h1]
    · have hs := countValsOf_sorted rs
      rw [hcv] at hs
      have := (List.sorted_cons.mp hs).1 x h2
      simpa using this

theorem maxCount_mem {rs : List Nat} (h : countsOf rs ≠ []) :
    maxCount rs ∈ countsOf rs := by
  unfold maxCount
  cases hcv : countValsOf rs with
  | nil =>
    exact absurd (List.Perm.symm (hcv ▸ countValsOf_perm rs)).eq_nil h
  | cons c t =>
    refine mem_countValsOf.mp ?_
    rw [hcv]
    simp

theorem countsOf_ne_nil {rs : List Nat} (h : rs ≠ []) : countsOf rs ≠ [] := by
  cases rs with
  | nil => exact absurd rfl h
  | cons a t =>
    intro hx
    have : (a :: t).count a ∈ countsOf (a :: t) :=
      mem_countsOf.mpr ⟨a, List.mem_cons_self a t, rfl⟩
    rw [hx] at this
    simp at this

theorem count_two_distinct (rs : List Nat) {v w : Nat} (h : v ≠ w) :
    rs.count v + rs.count w ≤ rs.length := by
  induction rs with
  | nil => simp
  | cons a t ih =>
    simp only [List.count_cons, List.length_cons, beq_iff_eq]
    by_cases hva : a = v <;> by_cases hwa : a = w
    · exact absurd (hva.symm.trans hwa) h
    · rw [if_pos hva, if_neg hwa]
      omega
    · rw [if_neg hva, if_pos hwa]
      omega
    · rw [if_neg hva, if_neg hwa]
      omega

theorem count_three_distinct (rs : List Nat) {v w u : Nat}
    (hvw : v ≠ w) (hvu : v ≠ u) (hwu : w ≠ u) :
    rs.count v + rs.count w + rs.count u ≤ rs.length := by
  induction rs with
  | nil => simp
  | cons a t ih =>
    simp only [List.count_cons, List.length_cons, beq_iff_eq]
    by_cases h1 : a = v <;> by_cases h2 : a = w <;> by_cases h3 : a = u
    · exact absurd (h1.symm.trans h2) hvw
    · exact absurd (h1.symm.trans h2) hvw
    · exact absurd (h1.symm.trans h3) hvu
    · rw [if_pos h1, if_neg h2, if_neg h3]
      omega
    · exact absurd (h2.symm.trans h3) hwu
    · rw [if_neg h1, if_pos h2, if_neg h3]
      omega
    · rw [if_neg h1, if_neg h2, if_pos h3]
      omega
    · rw [if_neg h1, if_neg h2, if_neg h3]
      omega

theorem maxCount_of_majority {rs : List Nat} {v k : Nat}
    (hv : v ∈ rs) (hk : rs.count v = k) (hmaj : rs.length < 2 * k) :
    maxCount rs = k := by
  have hkmem : k ∈ countsOf rs := mem_countsOf.mpr ⟨v, hv, hk⟩
  have hub := le_maxCount hkmem
  have hrs : rs ≠ [] := by
    intro hnil
    rw [hnil] at hv
    simp at hv
  have hmem := maxCount_mem (countsOf_ne_nil hrs)
  obtain ⟨w, hw, hcw⟩ := mem_countsOf.mp hmem
  by_cases hvw : w = v
  · subst hvw
    omega
  · have := count_two_distinct rs (Ne.symm hvw)
    have hlen := List.count_le_length (l := rs) (a := w)
    omega

theorem maxCount_zero_of_nil {rs : List Nat} (h : countsOf rs = []) :
    maxCount rs = 0 := by
  unfold maxCount countValsOf
  rw [h]
  rfl

theorem maxCount_eq_of_big {rs : List Nat} (h5 : rs.length = 5) {k : Nat}
    (hk2 : 3 ≤ k) : maxCount rs = k ↔ ∃ v ∈ rs, rs.count v = k := by
  constructor
  · intro hm
    have hne : countsOf rs ≠ [] := by
      intro hx
      rw [maxCount_zero_of_nil hx] at hm
      omega
    exact mem_countsOf.mp (hm ▸ maxCount_mem hne)
  · rintro ⟨v, hv, hc⟩
    exact maxCount_of_majority hv hc (by omega)

theorem countValsOf_shape {rs : List Nat} (h : maxCount rs ≠ 0) :
    ∃ t, countValsOf rs = maxCount rs :: t ∧
      (∀ x ∈ t, x ≤ maxCount rs) ∧ sndCount rs = t.getD 0 0 ∧
      t.Sorted (· ≥ ·) ∧ maxCount rs + t.sum = rs.length := by
  cases hcv : countValsOf rs with
  | nil =>
    refine absurd ?_ h
    unfold maxCount
    rw [hcv]
    rfl
  | cons c t =>
    have hc : c = maxCount rs := by
      unfold maxCount
      rw [hcv]
      rfl
    have hsort := countValsOf_sorted rs
    rw [hcv] at hsort
    refine ⟨t, by rw [← hc], ?_, ?_, (List.sorted_cons.mp hsort).2, ?_⟩
    · intro x hx
      exact le_maxCount (mem_countValsOf.mp (by rw [hcv]; exact List.mem_cons_of_mem c hx))
    · unfold sndCount
      rw [hcv]
      simp
    · have hsum : (countValsOf rs).sum = rs.length := by
        rw [(countValsOf_perm rs).sum_eq, sum_countsOf]
      rw [hcv] at hsum
      simpa [hc] using hsum

theorem two_in_map {xs : List Nat} {f : Nat → Nat} {y : Nat}
    (hnd : xs.Nodup) (h : 2 ≤ (xs.map f).count y) :
    ∃ v ∈ xs, ∃ w ∈ xs, v ≠ w ∧ f v = y ∧ f w = y := by
  induction xs with
  | nil => simp at h
  | cons a t ih =>
    rw [List.map_cons, List.count_cons] at h
    by_cases hfa : f a = y
    · rw [if_pos (by simpa using hfa)] at h
      have h1 : 1 ≤ (t.map f).count y := by omega
      have hy : y ∈ t.map f := List.count_pos_iff.mp (by omega)
      obtain ⟨w, hw, hfw⟩ := List.mem_map.mp hy
      refine ⟨a, List.mem_cons_self a t, w, List.mem_cons_of_mem a hw, ?_, hfa, hfw⟩
      intro hx
      exact hnd.not_mem (hx ▸ hw)
    · rw [if_neg (by simpa using hfa)] at h
      obtain ⟨v, hv, w, hw, hvw, hfv, hfw⟩ := ih hnd.of_cons (by omega)
      exact ⟨v, List.mem_cons_of_mem a hv, w, List.mem_cons_of_mem a hw, hvw, hfv, hfw⟩

theorem map_count_two {xs : List Nat} {f : Nat → Nat} {y v w : Nat}
    (hv : v ∈ xs) (hw : w ∈ xs) (hvw : v ≠ w) (hfv : f v = y) (hfw : f w = y) :
    2 ≤ (xs.map f).count y := by
  induction xs with
  | nil => simp at hv
  | cons a t ih =>
    rw [List.map_cons, List.count_cons]
    rcases List.mem_cons.mp hv with hva | hvt
    · have hwt : w ∈ t := by
        rcases List.mem_cons.mp hw with hwa | hwt
        · exact absurd (hva.trans hwa.symm) hvw
        · exact hwt
      have h1 : 1 ≤ (t.map f).count y :=
        List.count_pos_iff.mpr (List.mem_map.mpr ⟨w, hwt, hfw⟩)
      rw [if_pos (by simp [← hva, hfv])]
      omega
    · rcases List.mem_cons.mp hw with hwa | hwt
      · have h1 : 1 ≤ (t.map f).count y :=
          List.count_pos_iff.mpr (List.mem_map.mpr ⟨v, hvt, hfv⟩)
        rw [if_pos (by simp [← hwa, hfw])]
        omega
      · have := ih hvt hwt
        split <;> omega

theorem full_iff {rs : List Nat} (h5 : rs.length = 5) :
    (maxCount rs = 3 ∧ sndCount rs = 2) ↔
      ∃ v ∈ rs, ∃ w ∈ rs, v ≠ w ∧ rs.count v = 3 ∧ rs.count w = 2 := by
  constructor
  · rintro ⟨hm, hs⟩
    obtain ⟨t, hcv, hle, hsnd, hsort, hsum⟩ := countValsOf_shape (by rw [hm]; omega)
    obtain ⟨v, hv, hcv3⟩ := mem_countsOf.mp (hm ▸ maxCount_mem (by
      intro hx
      rw [maxCount_zero_of_nil hx] at hm
      omega))
    have h2mem : (2 : Nat) ∈ countsOf rs := by
      rw [hsnd] at hs
      cases t with
      | nil => simp at hs
      | cons x t2 =>
        have hx2 : x = 2 := by simpa using hs
        refine mem_countValsOf.mp ?_
        rw [hcv, hx2]
        simp
    obtain ⟨w, hw, hcw2⟩ := mem_countsOf.mp h2mem
    refine ⟨v, hv, w, hw, ?_, hcv3, hcw2⟩
    intro hx
    rw [hx, hcw2] at hcv3
    omega
  · rintro ⟨v, hv, w, hw, hvw, hcv3, hcw2⟩
    have hm : maxCount rs = 3 :=
      maxCount_of_majority (k := 3) hv hcv3 (by omega)
    obtain ⟨t, hcv, hle, hsnd, hsort, hsum⟩ := countValsOf_shape (by rw [hm]; omega)
    have h2mem : (2 : Nat) ∈ countValsOf rs :=
      mem_countValsOf.mpr (mem_countsOf.mpr ⟨w, hw, hcw2⟩)
    rw [hcv] at h2mem
    have h2t : (2 : Nat) ∈ t := by
      rcases List.mem_cons.mp h2mem with h1 | h2
      · exact absurd (hm.symm.trans h1.symm) (by norm_num)
      · exact h2
    refine ⟨hm, ?_⟩
    cases t with
    | nil => simp at h2t
    | cons x t2 =>
      have hxle : x ≤ t2.sum + x := by omega
      have hsum2 : x + t2.sum = 2 := by
        rw [hm, h5] at hsum
        simp [List.sum_cons] at hsum
        omega
      have hx2 : 2 ≤ x := by
        rcases List.mem_cons.mp h2t with h1 | h2
        · omega
        · have := (List.sorted_cons.mp hsort).1 2 h2
          simpa using this
      rw [hsnd]
      simp only [List.getD_cons_zero]
      omega

theorem twoPair_iff {rs : List Nat} (h5 : rs.length = 5) :
    (maxCount rs = 2 ∧ sndCount rs = 2) ↔
      ∃ v ∈ rs, ∃ w ∈ rs, v ≠ w ∧ rs.count v = 2 ∧ rs.count w = 2 := by
  constructor
  · rintro ⟨hm, hs⟩
    obtain ⟨t, hcv, hle, hsnd, hsort, hsum⟩ := countValsOf_shape (by rw [hm]; omega)
    have hc2 : 2 ≤ (countsOf rs).count 2 := by
      rw [← (countValsOf_perm rs).count_eq]
      rw [hcv, hm]
      rw [hsnd] at hs
      cases t with
      | nil => simp at hs
      | cons x t2 =>
        have hx2 : x = 2 := by simpa using hs
        rw [hx2]
        simp [List.count_cons]
    obtain ⟨v, hv, w, hw, hvw, hfv, hfw⟩ :=
      two_in_map (List.nodup_dedup rs) hc2
    exact ⟨v, List.mem_dedup.mp hv, w, List.mem_dedup.mp hw, hvw, hfv, hfw⟩
  · rintro ⟨v, hv, w, hw, hvw, hcv2, hcw2⟩
    have hc2 : 2 ≤ (countsOf rs).count 2 :=
      map_count_two (List.mem_dedup.mpr hv) (List.mem_dedup.mpr hw) hvw hcv2 hcw2
    have h2mem : (2 : Nat) ∈ countsOf rs :=
      List.count_pos_iff.mp (by omega)
    have hub := le_maxCount h2mem
    have hm : maxCount rs = 2 := by
      rcases Nat.lt_or_ge (maxCount rs) 3 with hlt | hge
      · omega
      · exfalso
        obtain ⟨u, hu, hcu⟩ := mem_countsOf.mp (maxCount_mem (by
          intro hx
          rw [maxCount_zero_of_nil hx] at hub
          omega))
        have huv : u ≠ v := by
          intro hx
          rw [hx, hcv2] at hcu
          omega
        have huw : u ≠ w := by
          intro hx
          rw [hx, hcw2] at hcu
          omega
        have h3 := count_three_distinct rs huv huw hvw
        rw [hcu, hcv2, hcw2] at h3
        omega
    obtain ⟨t, hcv, hle, hsnd, hsort, hsum⟩ := countValsOf_shape (by rw [hm]; omega)
    have hc2cv : 2 ≤ (countValsOf rs).count 2 := by
      rw [(countValsOf_perm rs).count_eq]
      exact hc2
    rw [hcv, hm] at hc2cv
    have h2t : (2 : Nat) ∈ t := by
      rw [List.count_cons] at hc2cv
      simp only [beq_self_eq_true, if_pos] at hc2cv
      exact List.count_pos_iff.mp (by omega)
    refine ⟨hm, ?_⟩
    cases t with
    | nil => simp at h2t
    | cons x t2 =>
      have hxle : x ≤ maxCount rs := hle x (List.mem_cons_self x t2)
      have hx2 : 2 ≤ x := by
        rcases List.mem_cons.mp h2t with h1 | h2
        · omega
        · have := (List.sorted_cons.mp hsort).1 2 h2
          simpa using this
      rw [hsnd]
      simp only [List.getD_cons_zero]
      omega

/-! ## Sequence and flush facts (C1) -/

theorem consecB_iff : ∀ rs : List Nat, consecB rs = true ↔ specConsec rs
  | [] => by simp [consecB, specConsec]
  | [a] => by simp [consecB, specConsec]
  | a :: b :: t => by
    have ih := consecB_iff (b :: t)
    show ((b == a + 1) && consecB (b :: t)) = true ↔ (b = a + 1 ∧ specConsec (b :: t))
    rw [Bool.and_eq_true, beq_iff_eq, ih]

theorem wheel_iff {rs : List Nat} (hs : rs.Sorted (· ≤ ·)) :
    (rs == [2, 3, 4, 5, 14]) = true ↔ specWheel rs := by
  rw [beq_iff_eq]
  constructor
  · intro h
    rw [h]
    exact List.Perm.refl _
  · intro h
    exact List.eq_of_perm_of_sorted h hs (by decide)

theorem consec_shape {rs : List Nat} (h5 : rs.length = 5) (hc : specConsec rs) :
    ∃ a, rs = [a, a + 1, a + 2, a + 3, a + 4] := by
  match rs, h5 with
  | [a, b, c, d, e], _ =>
    simp only [specConsec] at hc
    obtain ⟨h1, h2, h3, h4, -⟩ := hc
    refine ⟨a, ?_⟩
    subst h1
    subst h2
    subst h3
    subst h4
    norm_num

theorem isFlushB_iff (cards : List Card) :
    isFlushB (cards.map Card.suit) = true ↔ specFlush cards := by
  cases cards with
  | nil => simp [isFlushB, specFlush]
  | cons c0 rest =>
    show ((c0.suit :: rest.map Card.suit).all (fun t => t == c0.suit)) = true ↔ _
    rw [List.all_eq_true]
    constructor
    · intro h x hx y hy
      have hall : ∀ z ∈ c0 :: rest, z.suit = c0.suit := by
        intro z hz
        rcases List.mem_cons.mp hz with h1 | h2
        · rw [h1]
        · exact beq_iff_eq.mp (h _ (List.mem_cons_of_mem _ (List.mem_map_of_mem Card.suit h2)))
      rw [hall x hx, hall y hy]
    · intro h s hs
      rcases List.mem_cons.mp hs with h1 | h2
      · simp [h1]
      · obtain ⟨z, hz, hzs⟩ := List.mem_map.mp h2
        rw [beq_iff_eq, ← hzs]
        exact h z (List.mem_cons_of_mem _ hz) c0 (List.mem_cons_self _ _)

theorem pair_branch {rs : List Nat} (hm2 : maxCount rs = 2)
    (hnt : ¬∃ v ∈ rs, ∃ w ∈ rs, v ≠ w ∧ rs.count v = 2 ∧ rs.count w = 2) :
    ∃ p, rs.dedup.find? (fun v => rs.count v == 2) = some p ∧ rs.count p = 2 ∧
      p ∈ rs ∧ (∀ w ∈ rs, rs.count w = 2 → w = p) := by
  obtain ⟨v, hv, hcv⟩ := mem_countsOf.mp (hm2 ▸ maxCount_mem (by
    intro hx
    rw [maxCount_zero_of_nil hx] at hm2
    omega))
  have hsome : (rs.dedup.find? (fun v => rs.count v == 2)).isSome := by
    rw [List.find?_isSome]
    exact ⟨v, List.mem_dedup.mpr hv, by simp [hcv]⟩
  cases hfind : rs.dedup.find? (fun v => rs.count v == 2) with
  | none => rw [hfind] at hsome; simp at hsome
  | some p =>
    have hp2 : rs.count p = 2 := by
      have := List.find?_some hfind
      simpa using this
    have hpmem : p ∈ rs := List.mem_dedup.mp (List.mem_of_find?_eq_some hfind)
    refine ⟨p, rfl, hp2, hpmem, ?_⟩
    intro w hw hw2
    by_contra hne
    exact hnt ⟨w, hw, p, hpmem, hne, hw2, hp2⟩

theorem maxCount_two_of_pair {rs : List Nat} {v : Nat} (h5 : rs.length = 5)
    (hv : v ∈ rs) (h2 : rs.count v = 2)
    (h3 : ¬∃ u ∈ rs, rs.count u = 3) (h4 : ¬∃ u ∈ rs, rs.count u = 4) :
    maxCount rs = 2 := by
  have hle2 : 2 ≤ maxCount rs := le_maxCount (mem_countsOf.mpr ⟨v, hv, h2⟩)
  have hrsne : rs ≠ [] := by
    intro hnil
    rw [hnil] at hv
    simp at hv
  obtain ⟨u, hu, hcu⟩ := mem_countsOf.mp (maxCount_mem (countsOf_ne_nil hrsne))
  have hcu5 : rs.count u ≤ 5 := h5 ▸ List.count_le_length u rs
  rcases Nat.lt_or_ge (maxCount rs) 3 with hlt | hge
  · omega
  · exfalso
    have hm3 : rs.count u ≠ 3 := fun hx => h3 ⟨u, hu, hx⟩
    have hm4 : rs.count u ≠ 4 := fun hx => h4 ⟨u, hu, hx⟩
    have hm5 : rs.count u = 5 := by omega
    have huv : u ≠ v := by
      intro hx
      rw [hx, h2] at hm5
      omega
    have := count_two_distinct rs huv
    omega

theorem handClass_eq_spec {rs : List Nat} (h5 : rs.length = 5)
    (hs : rs.Sorted (· ≤ ·)) (f : Bool) :
    handClass rs f = specHandClass rs f := by
  by_cases hw : specWheel rs
  · have hrs : rs = [2, 3, 4, 5, 14] :=
      List.eq_of_perm_of_sorted hw hs (by decide)
    rw [hrs]
    cases f <;> rfl
  · have hwB : (rs == [2, 3, 4, 5, 14]) = false := by
      rw [Bool.eq_false_iff]
      intro hx
      exact hw ((wheel_iff hs).mp hx)
    by_cases hc : specConsec rs
    · -- a run of five consecutive ranks (and not the wheel)
      have hcB : consecB rs = true := (consecB_iff rs).mpr hc
      obtain ⟨a, hra⟩ := consec_shape h5 hc
      subst hra
      have hnd : List.Nodup [a, a + 1, a + 2, a + 3, a + 4] := by
        simp only [List.nodup_cons, List.mem_cons, List.mem_singleton, List.not_mem_nil]
        norm_num
      have hcount1 : ∀ v ∈ [a, a + 1, a + 2, a + 3, a + 4],
          List.count v [a, a + 1, a + 2, a + 3, a + 4] = 1 := fun v hv =>
        List.count_eq_one_of_mem hnd hv
      have hm1 : maxCount [a, a + 1, a + 2, a + 3, a + 4] = 1 := by
        obtain ⟨u, hu, hcu⟩ := mem_countsOf.mp
          (maxCount_mem (@countsOf_ne_nil [a, a + 1, a + 2, a + 3, a + 4] (by simp)))
        rw [← hcu, hcount1 u hu]
      have hnc4 : ¬∃ v ∈ [a, a + 1, a + 2, a + 3, a + 4],
          List.count v [a, a + 1, a + 2, a + 3, a + 4] = 4 := by
        rintro ⟨v, hv, h4⟩
        rw [hcount1 v hv] at h4
        omega
      have hnc3 : ¬∃ v ∈ [a, a + 1, a + 2, a + 3, a + 4],
          List.count v [a, a + 1, a + 2, a + 3, a + 4] = 3 := by
        rintro ⟨v, hv, h3⟩
        rw [hcount1 v hv] at h3
        omega
      have hncf : ¬∃ v ∈ [a, a + 1, a + 2, a + 3, a + 4],
          ∃ w ∈ [a, a + 1, a + 2, a + 3, a + 4], v ≠ w ∧
            List.count v [a, a + 1, a + 2, a + 3, a + 4] = 3 ∧
            List.count w [a, a + 1, a + 2, a + 3, a + 4] = 2 := by
        rintro ⟨v, hv, w, hw2, _, h3, _⟩
        rw [hcount1 v hv] at h3
        omega
      have hnc2 : ¬∃ v ∈ [a, a + 1, a + 2, a + 3, a + 4],
          ∃ w ∈ [a, a + 1, a + 2, a + 3, a + 4], v ≠ w ∧
            List.count v [a, a + 1, a + 2, a + 3, a + 4] = 2 ∧
            List.count w [a, a + 1, a + 2, a + 3, a + 4] = 2 := by
        rintro ⟨v, hv, w, hw2, _, h2, _⟩
        rw [hcount1 v hv] at h2
        omega
      have hncj : ¬∃ v ∈ [a, a + 1, a + 2, a + 3, a + 4],
          List.count v [a, a + 1, a + 2, a + 3, a + 4] = 2 ∧
            (∀ w ∈ [a, a + 1, a + 2, a + 3, a + 4],
              List.count w [a, a + 1, a + 2, a + 3, a + 4] = 2 → w = v) ∧ 11 ≤ v := by
        rintro ⟨v, hv, h2, _⟩
        rw [hcount1 v hv] at h2
        omega
      cases f with
      | true =>
        by_cases ha : a = 10
        · subst ha
          rfl
        · have hne14 : ¬(a + 4 = 14) := by omega
          simp [handClass, specHandClass, hwB, hcB, hc, hw, ha, hne14]
      | false =>
        simp [handClass, specHandClass, hwB, hcB, hc, hw, hm1,
          hnc4, hnc3, hncf, hnc2, hncj]
    · -- no sequence at all: only count-based and flush categories remain
      have hcB : consecB rs = false := by
        rw [Bool.eq_false_iff]
        intro hx
        exact hc ((consecB_iff rs).mp hx)
      by_cases hc4 : ∃ v ∈ rs, rs.count v = 4
      · have hm4 : maxCount rs = 4 := (maxCount_eq_of_big h5 (by omega)).mpr hc4
        simp [handClass, specHandClass, hwB, hcB, hc, hw, hm4, hc4]
      · by_cases hcf : ∃ v ∈ rs, ∃ w ∈ rs, v ≠ w ∧ rs.count v = 3 ∧ rs.count w = 2
        · have hm32 := (full_iff h5).mpr hcf
          simp [handClass, specHandClass, hwB, hcB, hc, hw, hm32.1, hm32.2, hc4, hcf]
        · by_cases hc3 : ∃ v ∈ rs, rs.count v = 3
          · have hm3 : maxCount rs = 3 := (maxCount_eq_of_big h5 (by omega)).mpr hc3
            have hsn2 : sndCount rs ≠ 2 := by
              intro hx
              exact hcf ((full_iff h5).mp ⟨hm3, hx⟩)
            cases f with
            | true =>
              simp [handClass, specHandClass, hwB, hcB, hc, hw, hm3, hsn2, hc4, hcf]
            | false =>
              simp [handClass, specHandClass, hwB, hcB, hc, hw, hm3, hsn2, hc4, hcf, hc3]
          · by_cases hc2p : ∃ v ∈ rs, ∃ w ∈ rs, v ≠ w ∧ rs.count v = 2 ∧ rs.count w = 2
            · have hm22 := (twoPair_iff h5).mpr hc2p
              cases f with
              | true =>
                simp [handClass, specHandClass, hwB, hcB, hc, hw, hm22.1, hm22.2,
                  hc4, hcf, hc2p]
              | false =>
                simp [handClass, specHandClass, hwB, hcB, hc, hw, hm22.1, hm22.2,
                  hc4, hcf, hc3, hc2p]
            · by_cases hcj : ∃ v ∈ rs, rs.count v = 2 ∧
                  (∀ w ∈ rs, rs.count w = 2 → w = v) ∧ 11 ≤ v
              · obtain ⟨v, hv, h2v, huniq, h11⟩ := hcj
                have hcj2 : ∃ v ∈ rs, rs.count v = 2 ∧
                    (∀ w ∈ rs, rs.count w = 2 → w = v) ∧ 11 ≤ v :=
                  ⟨v, hv, h2v, huniq, h11⟩
                have hm2 : maxCount rs = 2 := maxCount_two_of_pair h5 hv h2v hc3 hc4
                have hsn2 : sndCount rs ≠ 2 := by
                  intro hx
                  exact hc2p ((twoPair_iff h5).mp ⟨hm2, hx⟩)
                obtain ⟨p, hfind, hp2, hpmem, hpuniq⟩ := pair_branch hm2 hc2p
                have hpv : p = v := huniq p hpmem hp2
                have hp11 : 11 ≤ p := hpv ▸ h11
                cases f with
                | true =>
                  simp [handClass, specHandClass, hwB, hcB, hc, hw, hm2, hsn2,
                    hc4, hcf, hc2p, hcj2, hfind, hp11]
                | false =>
                  simp [handClass, specHandClass, hwB, hcB, hc, hw, hm2, hsn2,
                    hc4, hcf, hc3, hc2p, hcj2, hfind, hp11]
              · by_cases hm2 : maxCount rs = 2
                · obtain ⟨p, hfind, hp2, hpmem, hpuniq⟩ := pair_branch hm2 hc2p
                  have hsn2 : sndCount rs ≠ 2 := by
                    intro hx
                    exact hc2p ((twoPair_iff h5).mp ⟨hm2, hx⟩)
                  have hp11 : ¬(11 ≤ p) := by
                    intro hx
                    exact hcj ⟨p, hpmem, hp2, hpuniq, hx⟩
                  have hp14 : ¬(p = 14) := by
                    intro hx
                    rw [hx] at hp11
                    omega
                  cases f with
                  | true =>
                    simp [handClass, specHandClass, hwB, hcB, hc, hw, hm2, hsn2,
                      hc4, hcf, hc2p, hcj, hfind, hp11, hp14]
                  | false =>
                    simp [handClass, specHandClass, hwB, hcB, hc, hw, hm2, hsn2,
                      hc4, hcf, hc3, hc2p, hcj, hfind, hp11, hp14]
                · have hm4x : maxCount rs ≠ 4 := by
                    intro hx
                    exact hc4 ((maxCount_eq_of_big h5 (by omega)).mp hx)
                  have hm3x : maxCount rs ≠ 3 := by
                    intro hx
                    exact hc3 ((maxCount_eq_of_big h5 (by omega)).mp hx)
                  cases f with
                  | true =>
                    simp [handClass, specHandClass, hwB, hcB, hc, hw, hm2, hm3x, hm4x,
                      hc4, hcf, hc2p, hcj]
                  | false =>
                    simp [handClass, specHandClass, hwB, hcB, hc, hw, hm2, hm3x, hm4x,
                      hc4, hcf, hc3, hc2p, hcj]

theorem isFlushB_eq (cards : List Card) :
    isFlushB (cards.map Card.suit) = decide (specFlush cards) := by
  cases hb : isFlushB (cards.map Card.suit) with
  | false =>
    symm
    rw [decide_eq_false_iff_not]
    intro hp
    rw [(isFlushB_iff cards).mpr hp] at hb
    simp at hb
  | true =>
    symm
    rw [decide_eq_true_eq]
    exact (isFlushB_iff cards).mp hb

theorem evaluateHand_eq_spec {cards : List Card} (h5 : cards.length = 5) :
    evaluateHand cards = specEvaluateHand cards := by
  unfold evaluateHand specEvaluateHand
  rw [isFlushB_eq]
  apply handClass_eq_spec
  · rw [(List.perm_insertionSort _ _).length_eq, List.length_map, h5]
  · exact List.sorted_insertionSort _ _

/-- C1: for every 5-card hand, `evaluateHand` returns exactly the category
of the spec's 10-way classification (`specEvaluateHand`, written from the
spec's words: the sequence test as consecutive-differences-1 or the wheel
multiset, Royal Flush as flush-and-sequence with high card Ace and not the
wheel, the count-based categories by rank multiplicities, first match
wins); in particular the spec's literal cases evaluate as stated. -/
theorem evaluateHand_spec :
    (∀ cards : List Card, cards.length = 5 →
      evaluateHand cards = specEvaluateHand cards) ∧
    evaluateHand [⟨.n2, .S⟩, ⟨.n3, .H⟩, ⟨.n4, .D⟩, ⟨.n5, .C⟩, ⟨.A, .H⟩] = .straight ∧
    evaluateHand [⟨.n5, .S⟩, ⟨.n5, .H⟩, ⟨.n5, .D⟩, ⟨.n9, .C⟩, ⟨.n2, .H⟩] = .threeOfAKind ∧
    evaluateHand [⟨.n4, .S⟩, ⟨.n4, .H⟩, ⟨.n9, .D⟩, ⟨.n9, .C⟩, ⟨.n2, .H⟩] = .twoPair ∧
    evaluateHand [⟨.J, .S⟩, ⟨.J, .H⟩, ⟨.n2, .D⟩, ⟨.n5, .C⟩, ⟨.n9, .H⟩] = .jacksOrBetter ∧
    evaluateHand [⟨.J, .S⟩, ⟨.n9, .H⟩, ⟨.n2, .D⟩, ⟨.n5, .C⟩, ⟨.K, .H⟩] = .noWin ∧
    evaluateHand [⟨.n2, .S⟩, ⟨.n2, .H⟩, ⟨.n9, .D⟩, ⟨.n5, .C⟩, ⟨.K, .H⟩] = .noWin ∧
    evaluateHand [⟨.n10, .S⟩, ⟨.J, .S⟩, ⟨.Q, .S⟩, ⟨.K, .S⟩, ⟨.A, .S⟩] = .royalFlush ∧
    evaluateHand [⟨.n2, .H⟩, ⟨.n3, .H⟩, ⟨.n4, .H⟩, ⟨.n5, .H⟩, ⟨.A, .H⟩] = .straightFlush :=
  ⟨fun _ h5 => evaluateHand_eq_spec h5, by decide, by decide, by decide, by decide,
    by decide, by decide, by decide, by decide⟩

/-- Witness for C1: the royal flush hand evaluated through both
classifiers. -/
theorem evaluateHand_spec_witness :
    evaluateHand [⟨.n10, .S⟩, ⟨.J, .S⟩, ⟨.Q, .S⟩, ⟨.K, .S⟩, ⟨.A, .S⟩] =
      specEvaluateHand [⟨.n10, .S⟩, ⟨.J, .S⟩, ⟨.Q, .S⟩, ⟨.K, .S⟩, ⟨.A, .S⟩] :=
  evaluateHand_spec.1 _ (by decide)
